import Mathlib

/-!
Verification of the S7 DB simulator core (type codec, DB memory store,
synchronizer, config validator, script engine) against its specification.

The Python sources are shallowly embedded:
  pure functions become Lean functions, byte strings become lists of
  naturals below 256, Python strings become lists of characters, Python
  exceptions become Option results (none = the operation raised), and the
  stateful store becomes explicit state passing.  Machine integers are
  modelled as Nat / Int with explicit reductions modulo powers of two.
-/

namespace S7Sim

set_option maxRecDepth 4096

/-! ## Python scalar values

Values that flow into the handlers: Python booleans, (unbounded) integers,
floats (modelled as the exact rational the IEEE-754 double denotes; the
model cannot express minus zero, infinities or NaNs), strings (lists of
unicode characters), naive datetimes, and the (datetime, weekday) tuples
accepted by the DTL handler. -/

/-- Model of a Python naive datetime value (datetime.datetime). -/
structure PyDateTime where
  year : Nat
  month : Nat
  day : Nat
  hour : Nat
  minute : Nat
  second : Nat
  microsecond : Nat
deriving DecidableEq, Repr

/-- Model of the Python values handed to pack and to write_value. -/
inductive PyVal where
  | vBool (b : Bool)
  | vInt (n : Int)
  | vFloat (q : ℚ)
  | vStr (s : List Char)
  | vDT (d : PyDateTime)
  | vDTL (d : PyDateTime) (weekday : Int)
deriving DecidableEq, Repr

/-- Truthiness of a Python value, as used by BoolHandler.pack via
the conditional expression 1 if value else 0. -/
def truthy : PyVal → Bool
  | .vBool b => b
  | .vInt n => n ≠ 0
  | .vFloat q => q ≠ 0
  | .vStr s => s ≠ []
  | .vDT _ => true
  | .vDTL _ _ => true

/-! ## Big-endian byte helpers (struct.pack / struct.unpack) -/

/-- Encoding struct.pack with format >H of a value already reduced to
the range 0 ≤ v < 65536: two big-endian bytes. -/
def pack16 (v : Nat) : List Nat := [v / 256 % 256, v % 256]

/-- Encoding struct.pack with format >I of a value already reduced to
the range 0 ≤ v < 2^32: four big-endian bytes. -/
def pack32 (v : Nat) : List Nat :=
  [v / 2 ^ 24 % 256, v / 2 ^ 16 % 256, v / 2 ^ 8 % 256, v % 256]

/-- Decoding struct.unpack with format >H on data sliced with
data[:2]: fails (struct.error) when fewer than two bytes remain. -/
def unpack16 : List Nat → Option Nat
  | b0 :: b1 :: _ => some (b0 * 256 + b1)
  | _ => none

/-- Decoding struct.unpack with format >I on data sliced with
data[:4]: fails (struct.error) when fewer than four bytes remain. -/
def unpack32 : List Nat → Option Nat
  | b0 :: b1 :: b2 :: b3 :: _ =>
      some (b0 * 2 ^ 24 + b1 * 2 ^ 16 + b2 * 2 ^ 8 + b3)
  | _ => none

/-! ## Python numeric and string coercions used by the handlers -/

/-- Parse an optionally signed run of decimal digits, as the int
constructor does on strings (int raises ValueError otherwise). -/
def parseIntChars : List Char → Option Int
  | [] => none
  | '-' :: ds =>
      if ds ≠ [] ∧ ds.all Char.isDigit then
        some (-(ds.foldl (fun a c => a * 10 + (c.toNat - 48)) 0 : Nat))
      else none
  | '+' :: ds =>
      if ds ≠ [] ∧ ds.all Char.isDigit then
        some ((ds.foldl (fun a c => a * 10 + (c.toNat - 48)) 0 : Nat))
      else none
  | ds =>
      if ds ≠ [] ∧ ds.all Char.isDigit then
        some ((ds.foldl (fun a c => a * 10 + (c.toNat - 48)) 0 : Nat))
      else none

/-- Coercion int(value) applied by the integer-family handlers.  Floats
truncate toward zero; strings parse as a decimal literal; datetimes
raise TypeError (none). -/
def intOfVal : PyVal → Option Int
  | .vBool b => some (if b then 1 else 0)
  | .vInt n => some n
  | .vFloat q => some (q.num / (q.den : Int))
  | .vStr s => parseIntChars s
  | .vDT _ => none
  | .vDTL _ _ => none

/-! ## BoolHandler -/

/-- Packing by BoolHandler.pack: bytes([1 if value else 0]). -/
def boolPack (v : PyVal) : List Nat := [if truthy v then 1 else 0]

/-- Unpacking by BoolHandler.unpack: bool(data[0]); indexing an empty
bytes object raises IndexError. -/
def boolUnpack : List Nat → Option Bool
  | [] => none
  | b :: _ => some (b ≠ 0)

/-! ## ByteHandler -/

/-- Packing by ByteHandler.pack: bytes([int(value) & 0xFF]). -/
def bytePack (v : PyVal) : Option (List Nat) :=
  (intOfVal v).map (fun n => [(n % 256).toNat])

/-- Unpacking by ByteHandler.unpack: data[0]. -/
def byteUnpack : List Nat → Option Nat
  | [] => none
  | b :: _ => some b

/-! ## WordHandler / IntHandler / DWordHandler / DIntHandler -/

/-- Packing by WordHandler.pack: struct.pack with format >H raises
struct.error outside 0..65535. -/
def wordPack (v : PyVal) : Option (List Nat) :=
  (intOfVal v).bind fun n =>
    if 0 ≤ n ∧ n < 65536 then some (pack16 n.toNat) else none

/-- Unpacking by WordHandler.unpack: struct.unpack of data[:2]. -/
def wordUnpack (data : List Nat) : Option Nat := unpack16 data

/-- Packing by IntHandler.pack: struct.pack with format >h raises
struct.error outside -32768..32767; the encoding is the value modulo
2^16 (big-endian two's complement). -/
def intPack (v : PyVal) : Option (List Nat) :=
  (intOfVal v).bind fun n =>
    if -32768 ≤ n ∧ n < 32768 then some (pack16 (n % 65536).toNat) else none

/-- Unpacking by IntHandler.unpack: struct.unpack with format >h of
data[:2], two's complement decoding. -/
def intUnpack (data : List Nat) : Option Int :=
  (unpack16 data).map fun u : Nat =>
    if u < 32768 then (u : Int) else (u : Int) - 65536

/-- Packing by DWordHandler.pack: struct.pack with format >I raises
struct.error outside 0..2^32-1. -/
def dwordPack (v : PyVal) : Option (List Nat) :=
  (intOfVal v).bind fun n =>
    if 0 ≤ n ∧ n < 2 ^ 32 then some (pack32 n.toNat) else none

/-- Unpacking by DWordHandler.unpack: struct.unpack of data[:4]. -/
def dwordUnpack (data : List Nat) : Option Nat := unpack32 data

/-- Packing by DIntHandler.pack: struct.pack with format >i raises
struct.error outside -2^31..2^31-1. -/
def dintPack (v : PyVal) : Option (List Nat) :=
  (intOfVal v).bind fun n =>
    if -(2 ^ 31) ≤ n ∧ n < 2 ^ 31 then some (pack32 (n % 2 ^ 32).toNat)
    else none

/-- Unpacking by DIntHandler.unpack: struct.unpack with format >i of
data[:4], two's complement decoding. -/
def dintUnpack (data : List Nat) : Option Int :=
  (unpack32 data).map fun u : Nat =>
    if u < 2 ^ 31 then (u : Int) else (u : Int) - 2 ^ 32

/-! ## StringHandler (STRING[n]) -/

/-- Conversion str(value) applied by StringHandler.pack.  The shortest
round-trip repr of floats and the repr of datetimes are outside this
model (none); the claims only exercise string, integer and boolean
inputs. -/
def strOfVal : PyVal → Option (List Char)
  | .vStr s => some s
  | .vInt n => some (toString n).data
  | .vBool b => some (if b then ['T','r','u','e'] else ['F','a','l','s','e'])
  | _ => none

/-- Packing by StringHandler.pack with maximum length n:
s = str(value)[:n].encode(ascii); bytes([n, len(s)]) + s.  The ascii
encode raises UnicodeEncodeError on a character above 127, and bytes
raises ValueError when n is above 255. -/
def stringPack (n : Nat) (v : PyVal) : Option (List Nat) :=
  (strOfVal v).bind fun s0 =>
    let s := s0.take n
    if n ≤ 255 ∧ s.all (fun c => c.toNat < 128) then
      some (n :: s.length :: s.map Char.toNat)
    else none

/-- Unpacking by StringHandler.unpack: actual_len = data[1];
data[2:2+actual_len].decode(ascii).  Indexing raises on fewer than two
bytes; the slice silently yields fewer bytes when the buffer is short;
decoding raises on a byte above 127. -/
def stringUnpack : List Nat → Option (List Char)
  | _ :: k :: rest =>
      let payload := rest.take k
      if payload.all (fun b => b < 128) then
        some (payload.map Char.ofNat)
      else none
  | _ => none

/-! ## WStringHandler (WSTRING[n]) -/

/-- UTF-16 code units of one character (a surrogate pair above the
basic multilingual plane, one unit otherwise). -/
def utf16Units (c : Char) : List Nat :=
  if c.toNat < 65536 then [c.toNat]
  else
    [55296 + (c.toNat - 65536) / 1024, 56320 + (c.toNat - 65536) % 1024]

/-- Encoding encode(utf-16be): each code unit as two big-endian bytes. -/
def utf16beEncode (s : List Char) : List Nat :=
  ((s.map utf16Units).flatten.map pack16).flatten

/-- Decoding decode(utf-16be) of a list of code units: a high surrogate
must be followed by a low surrogate; a lone surrogate raises
UnicodeDecodeError (none). -/
def utf16DecodeUnits : List Nat → Option (List Char)
  | [] => some []
  | [u] =>
      if u < 55296 ∨ (57344 ≤ u ∧ u < 65536) then some [Char.ofNat u]
      else none
  | u :: lo :: rest =>
      if u < 55296 ∨ (57344 ≤ u ∧ u < 65536) then
        (utf16DecodeUnits (lo :: rest)).map fun cs => Char.ofNat u :: cs
      else if u < 56320 then
        if 56320 ≤ lo ∧ lo < 57344 then
          (utf16DecodeUnits rest).map fun cs =>
            Char.ofNat (65536 + (u - 55296) * 1024 + (lo - 56320)) :: cs
        else none
      else none

/-- Decoding decode(utf-16be) of raw bytes: pairs of bytes form
big-endian code units; an odd trailing byte raises (none). -/
def utf16beDecode : List Nat → Option (List Char)
  | [] => some []
  | [_] => none
  | b0 :: b1 :: rest => do
      let units ← utf16beDecodeUnitsAux (b0 :: b1 :: rest)
      utf16DecodeUnits units
where
  /-- Pair raw bytes into big-endian code units; odd length fails. -/
  utf16beDecodeUnitsAux : List Nat → Option (List Nat)
    | [] => some []
    | [_] => none
    | b0 :: b1 :: rest =>
        (utf16beDecodeUnitsAux rest).map fun us => (b0 * 256 + b1) :: us

/-- Packing by WStringHandler.pack with maximum length n:
s = str(value)[:n]; encoded = s.encode(utf-16be);
struct.pack(>HH, n, len(encoded)//2) + encoded.  The header pack
raises struct.error when either length is 65536 or more. -/
def wstringPack (n : Nat) (v : PyVal) : Option (List Nat) :=
  (strOfVal v).bind fun s0 =>
    let s := s0.take n
    let encoded := utf16beEncode s
    let actualLen := encoded.length / 2
    if n < 65536 ∧ actualLen < 65536 then
      some (pack16 n ++ pack16 actualLen ++ encoded)
    else none

/-- Unpacking by WStringHandler.unpack: struct.unpack(>HH, data[:4])
then data[4:4+actual_len*2].decode(utf-16be).  The header needs four
bytes; the payload slice silently truncates on a short buffer. -/
def wstringUnpack : List Nat → Option (List Char)
  | _ :: _ :: c0 :: c1 :: rest =>
      let actualLen := c0 * 256 + c1
      utf16beDecode (rest.take (actualLen * 2))
  | _ => none

/-! ## RealHandler (IEEE-754 binary32)

Python floats are the exact rationals denoted by IEEE-754 doubles;
struct.pack with format >f converts the double to single precision with
round-to-nearest, ties to even, raising OverflowError when the result
would exceed the single-precision range.  struct.unpack widens the
single exactly, and RealHandler.unpack applies round(x, 2), which
rounds the exact value to two decimal places (ties to even) and then to
the nearest double. -/

/-- Upward scan for the binary magnitude of a rational at least one:
the floor base-two logarithm, accumulated while halving. -/
def flog2Up : Nat → ℚ → ℤ → ℤ
  | 0, _, acc => acc
  | fuel + 1, a, acc => if a < 2 then acc else flog2Up fuel (a / 2) (acc + 1)

/-- Downward scan for the binary magnitude of a positive rational below
one, accumulated while doubling. -/
def flog2Down : Nat → ℚ → ℤ → ℤ
  | 0, _, acc => acc
  | fuel + 1, a, acc => if 1 ≤ a then acc else flog2Down fuel (a * 2) (acc - 1)

/-- Floor base-two logarithm of a positive rational (the binary
exponent used by IEEE-754 conversion), kept fuel-based so the kernel
can evaluate it. -/
def flog2 (a : ℚ) : ℤ :=
  if 1 ≤ a then flog2Up a.num.toNat a 0 else flog2Down a.den a 0

/-- Rounding a rational to the nearest integer, ties to even, as IEEE
round-to-nearest-even and the float round() builtin do. -/
def rne (q : ℚ) : ℤ :=
  let f := ⌊q⌋
  let r := q - f
  if r < 1 / 2 then f
  else if 1 / 2 < r then f + 1
  else if Even f then f else f + 1

/-- Multiplication by a (possibly negative) power of two, kept
executable with Nat exponents. -/
def shift2 (a : ℚ) (k : ℤ) : ℚ :=
  if 0 ≤ k then a * 2 ^ k.toNat else a / 2 ^ (-k).toNat

/-- Raw 4-byte big-endian image of an IEEE-754 binary32 with sign s,
biased exponent E and fraction F. -/
def fpBits (s E F : Nat) : List Nat := pack32 (s * 2 ^ 31 + E * 2 ^ 23 + F)

/-- Exact rational value of the binary32 with sign s, biased
exponent E (0 = subnormal) and fraction F. -/
def valN (s E F : Nat) : ℚ :=
  let mag : ℚ :=
    if E = 0 then (F : ℚ) / 2 ^ 149
    else ((2 ^ 23 + F : Nat) : ℚ) * 2 ^ E / 2 ^ 150
  if s = 0 then mag else -mag

/-- Conversion of a double to IEEE-754 binary32 bytes with
round-to-nearest-even, as struct.pack with format >f performs;
none models OverflowError. -/
def encode32 (v : ℚ) : Option (List Nat) :=
  if v = 0 then some (fpBits 0 0 0)
  else
    let s := if v < 0 then 1 else 0
    let a := |v|
    let e := flog2 a
    if -126 ≤ e then
      let m := (rne (shift2 a (23 - e))).toNat
      if m = 2 ^ 24 then
        if 127 < e + 1 then none else some (fpBits s (e + 1 + 127).toNat 0)
      else if 127 < e then none
      else some (fpBits s (e + 127).toNat (m - 2 ^ 23))
    else
      let m := (rne (shift2 a 149)).toNat
      if m = 2 ^ 23 then some (fpBits s 1 0) else some (fpBits s 0 m)

/-- Decoding struct.unpack with format >f of data[:4].  A biased
exponent of 255 denotes an infinity or NaN, which the rational model
cannot express (none); actual byte values are below 256 by the bytes
type invariant, made explicit here. -/
def decode32 : List Nat → Option ℚ
  | b0 :: b1 :: b2 :: b3 :: _ =>
      if b0 < 256 ∧ b1 < 256 ∧ b2 < 256 ∧ b3 < 256 then
        let w := b0 * 2 ^ 24 + b1 * 2 ^ 16 + b2 * 2 ^ 8 + b3
        let E := w / 2 ^ 23 % 256
        if E = 255 then none else some (valN (w / 2 ^ 31) E (w % 2 ^ 23))
      else none
  | _ => none

/-- Value-level rounding of an exact rational to the nearest IEEE-754
double (round-to-nearest-even, subnormals below 2^-1022). -/
def roundF64 (q : ℚ) : ℚ :=
  if q = 0 then 0
  else
    let a := |q|
    let e := flog2 a
    let m :=
      if -1022 ≤ e then shift2 ((rne (shift2 a (52 - e)) : ℤ) : ℚ) (e - 52)
      else shift2 ((rne (shift2 a 1074) : ℤ) : ℚ) (-1074)
    if q < 0 then -m else m

/-- Behaviour of the Python builtin round(x, 2) on a float: the exact
value is rounded to two decimal places (ties to even) and the result is
the nearest double to that decimal. -/
def round2py (q : ℚ) : ℚ := roundF64 (((rne (q * 100) : ℤ) : ℚ) / 100)

/-- Fold of a digit run into a natural number. -/
def digitsVal (ds : List Char) : Nat :=
  ds.foldl (fun a c => a * 10 + (c.toNat - 48)) 0

/-- Parse the mantissa part of a float literal: digits with at most one
decimal point, at least one digit overall. -/
def parseFloatMantissa (s : List Char) : Option ℚ :=
  match s.splitOn '.' with
  | [ip] => if ip ≠ [] ∧ ip.all Char.isDigit then some (digitsVal ip) else none
  | [ip, fp] =>
      if (ip ≠ [] ∨ fp ≠ []) ∧ ip.all Char.isDigit ∧ fp.all Char.isDigit then
        some ((digitsVal ip : ℚ) + (digitsVal fp : ℚ) / 10 ^ fp.length)
      else none
  | _ => none

/-- Parse a float literal as the float constructor does on strings
(sign, decimal mantissa, optional exponent); the infinity and NaN
spellings are outside the rational model. -/
def parseFloatChars (s : List Char) : Option ℚ :=
  let go : List Char → Option ℚ := fun t =>
    match t.splitOn 'e' with
    | [m] => parseFloatMantissa m
    | [m, ex] =>
        (parseFloatMantissa m).bind fun mv =>
          (parseIntChars ex).map fun k =>
            if 0 ≤ k then mv * 10 ^ k.toNat else mv / 10 ^ (-k).toNat
    | _ => none
  match s.map Char.toLower with
  | '-' :: t => (go t).map Neg.neg
  | '+' :: t => go t
  | t => go t

/-- Coercion float(value) applied by RealHandler.pack.  Integers and
parsed strings round to the nearest double; huge integers raise
OverflowError (none); datetimes raise TypeError. -/
def floatOfVal : PyVal → Option ℚ
  | .vFloat q => some q
  | .vInt n => if |(n : ℚ)| < 2 ^ 1024 then some (roundF64 n) else none
  | .vBool b => some (if b then 1 else 0)
  | .vStr s => (parseFloatChars s).map roundF64
  | _ => none

/-- Packing by RealHandler.pack: struct.pack(>f, float(value)). -/
def realPack (v : PyVal) : Option (List Nat) := (floatOfVal v).bind encode32

/-- Unpacking by RealHandler.unpack: an explicit length check below
four bytes raises ValueError, then round(struct.unpack(>f, data[:4])[0], 2). -/
def realUnpack (data : List Nat) : Option ℚ :=
  if data.length < 4 then none else (decode32 data).map round2py

/-- Domain of the REAL type: the exact values a finite binary32 can
hold, characterised as the possible results of decoding. -/
def Rep32 (v : ℚ) : Prop := ∃ bs, decode32 bs = some v

/-! ## Dates: validity, weekday, parsing and display -/

/-- Gregorian leap-year rule, as the datetime module applies. -/
def isLeap (y : Nat) : Bool := decide (y % 4 = 0 ∧ (y % 100 ≠ 0 ∨ y % 400 = 0))

/-- Days in a month of a given year. -/
def daysInMonth (y m : Nat) : Nat :=
  if m = 2 then (if isLeap y then 29 else 28)
  else if m = 4 ∨ m = 6 ∨ m = 9 ∨ m = 11 then 30
  else 31

/-- Invariant the datetime constructor enforces; a PyDateTime obtained
from Python code always satisfies it. -/
def dtValid (d : PyDateTime) : Bool :=
  decide (1 ≤ d.year ∧ d.year ≤ 9999 ∧ 1 ≤ d.month ∧ d.month ≤ 12 ∧
    1 ≤ d.day ∧ d.day ≤ daysInMonth d.year d.month ∧
    d.hour < 24 ∧ d.minute < 60 ∧ d.second < 60 ∧ d.microsecond < 1000000)

/-- Days since 1970-01-01 of a proleptic Gregorian date (the civil
day-count computation underlying date.toordinal / weekday). -/
def daysFromCivil (y m d : Int) : Int :=
  let y := if m ≤ 2 then y - 1 else y
  let era := (if 0 ≤ y then y else y - 399) / 400
  let yoe := y - era * 400
  let doy := (153 * (if 2 < m then m - 3 else m + 9) + 2) / 5 + d - 1
  let doe := yoe * 365 + yoe / 4 - yoe / 100 + doy
  era * 146097 + doe - 719468

/-- Result of datetime.isoweekday: Monday is 1 through Sunday 7. -/
def isoWeekday (y m d : Nat) : Nat :=
  ((daysFromCivil y m d + 3) % 7 + 1).toNat

/-- Decimal digits of a natural number. -/
def natRepr (n : Nat) : List Char := (toString n).data

/-- Zero-padded decimal rendering, as the format specifier 0wd. -/
def pad0 (w n : Nat) : List Char :=
  List.replicate (w - (natRepr n).length) '0' ++ natRepr n

/-- Rendering f-string YYYY-MM-DD HH:MM:SS with zero padding, shared by
the DT display and the strftime call of the DTL display. -/
def fmtDateTime (d : PyDateTime) : List Char :=
  pad0 4 d.year ++ '-' :: pad0 2 d.month ++ '-' :: pad0 2 d.day ++
    ' ' :: pad0 2 d.hour ++ ':' :: pad0 2 d.minute ++ ':' :: pad0 2 d.second

/-- Parse the shared YYYY-MM-DD and HH:MM:SS pieces the way
datetime.strptime with format %Y-%m-%d %H:%M:%S does: bounded digit
runs, then the datetime constructor validates ranges. -/
def parseDateTimeMain (dateStr timeStr : List Char) : Option PyDateTime :=
  match dateStr.splitOn '-', timeStr.splitOn ':' with
  | [y, mo, d], [h, mi, se] =>
      if y ≠ [] ∧ y.length ≤ 4 ∧ y.all Char.isDigit ∧
          mo ≠ [] ∧ mo.length ≤ 2 ∧ mo.all Char.isDigit ∧
          d ≠ [] ∧ d.length ≤ 2 ∧ d.all Char.isDigit ∧
          h ≠ [] ∧ h.length ≤ 2 ∧ h.all Char.isDigit ∧
          mi ≠ [] ∧ mi.length ≤ 2 ∧ mi.all Char.isDigit ∧
          se ≠ [] ∧ se.length ≤ 2 ∧ se.all Char.isDigit then
        let dt : PyDateTime :=
          ⟨digitsVal y, digitsVal mo, digitsVal d,
            digitsVal h, digitsVal mi, digitsVal se, 0⟩
        if dtValid dt then some dt else none
      else none
  | _, _ => none

/-- Parsing a DT string per DTHandler.pack: the T separator becomes a
space, then one strict strptime with %Y-%m-%d %H:%M:%S. -/
def parseDT (s : List Char) : Option PyDateTime :=
  match (s.map fun c => if c = 'T' then ' ' else c).splitOn ' ' with
  | [dateStr, timeStr] => parseDateTimeMain dateStr timeStr
  | _ => none

/-- Whitespace split as the argument-free str.split, modelling the
space character. -/
def splitWs (s : List Char) : List (List Char) :=
  (s.splitOn ' ').filter (· ≠ [])

/-- Strip of surrounding whitespace (space character model). -/
def trimWs (s : List Char) : List Char :=
  ((s.dropWhile (· = ' ')).reverse.dropWhile (· = ' ')).reverse

/-- Parsing a DTL string per DTLHandler.pack: two or three
whitespace-separated parts, optional fractional seconds padded right to
six digits, optional trailing integer weekday (an empty weekday cannot
arise from the split, so three parts always parse it). -/
def parseDTL (s : List Char) : Option (PyDateTime × Int) :=
  let core := fun (dateStr timeStr : List Char) (wd : Option (List Char)) =>
    (match timeStr.splitOn '.' with
      | [tm] => some (tm, ([] : List Char))
      | [tm, micro] => some (tm, micro)
      | _ => none).bind fun p =>
      let micro := if p.2 = [] then ['0']
        else p.2 ++ List.replicate (6 - p.2.length) '0'
      (parseDateTimeMain dateStr p.1).bind fun dt =>
        (parseIntChars micro).bind fun mi =>
          if 0 ≤ mi ∧ mi < 1000000 then
            let dt := { dt with microsecond := mi.toNat }
            match wd with
            | some w => (parseIntChars w).map fun k => (dt, k)
            | none =>
                some (dt, (isoWeekday dt.year dt.month dt.day % 7 + 1 : Nat))
          else none
  match splitWs (trimWs s) with
  | [dateStr, timeStr] => core dateStr timeStr none
  | [dateStr, timeStr, w] => core dateStr timeStr (some w)
  | _ => none

/-! ## DTHandler (8 bytes, BCD) -/

/-- BCD encoding of a two-digit value, the local to_bcd. -/
def toBcd (v : Nat) : Nat := v / 10 * 16 + v % 10

/-- BCD decoding, the local from_bcd. -/
def fromBcd (b : Nat) : Nat := b / 16 * 10 + b % 16

/-- Byte image produced by DTHandler.pack for a datetime; the final
bytes call raises ValueError when a computed entry reaches 256, which
happens for microseconds of 100000 and above (the hundredths BCD nibble
overflows). -/
def dtPackCore (dt : PyDateTime) : Option (List Nat) :=
  let ms := dt.microsecond / 1000
  let msByte := toBcd (ms / 10) * 16 + toBcd (ms % 10)
  let dow := isoWeekday dt.year dt.month dt.day % 7 + 1
  let bs := [toBcd (dt.year % 100), toBcd dt.month, toBcd dt.day,
    toBcd dt.hour, toBcd dt.minute, toBcd dt.second, msByte, toBcd dow * 16]
  if bs.all (· < 256) then some bs else none

/-- Packing by DTHandler.pack: strings parse first; any other
non-datetime raises ValueError. -/
def dtPack (v : PyVal) : Option (List Nat) :=
  match v with
  | .vStr s => (parseDT s).bind dtPackCore
  | .vDT d => dtPackCore d
  | _ => none

/-- Unpacking by DTHandler.unpack: reads bytes 0 through 6 only (the
recovered sub-second value is discarded and the weekday byte is never
touched), maps the two-digit year through the 1990/2089 window, and
renders the canonical display string without sub-seconds. -/
def dtUnpack (data : List Nat) : Option (List Char) :=
  match data with
  | d0 :: d1 :: d2 :: d3 :: d4 :: d5 :: _ :: _ =>
      let year := fromBcd d0
      let yearFull := if year < 90 then 2000 + year else 1900 + year
      some (fmtDateTime
        ⟨yearFull, fromBcd d1, fromBcd d2, fromBcd d3, fromBcd d4,
          fromBcd d5, 0⟩)
  | _ => none

/-! ## DTLHandler (12 bytes, binary) -/

/-- Byte image produced by DTLHandler.pack: year as >H, then month,
day, weekday, hour, minute, second bytes, then nanoseconds as >I.
Bytearray stores and the struct packs raise outside byte and u16/u32
ranges (a weekday parsed from the string form can be out of range). -/
def dtlPackCore (dt : PyDateTime) (weekday : Int) : Option (List Nat) :=
  if dt.year < 65536 ∧ dt.month < 256 ∧ dt.day < 256 ∧
      0 ≤ weekday ∧ weekday < 256 ∧ dt.hour < 256 ∧ dt.minute < 256 ∧
      dt.second < 256 ∧ dt.microsecond * 1000 < 2 ^ 32 then
    some (pack16 dt.year ++
      [dt.month, dt.day, weekday.toNat, dt.hour, dt.minute, dt.second] ++
      pack32 (dt.microsecond * 1000))
  else none

/-- Packing by DTLHandler.pack: strings parse first; a bare datetime
gets the computed weekday; a (datetime, weekday) tuple is used as is;
anything else fails. -/
def dtlPack (v : PyVal) : Option (List Nat) :=
  match v with
  | .vStr s => (parseDTL s).bind fun p => dtlPackCore p.1 p.2
  | .vDTL d w => dtlPackCore d w
  | .vDT d => dtlPackCore d (isoWeekday d.year d.month d.day % 7 + 1)
  | _ => none

/-- Canonical DTL display string: strftime %Y-%m-%d %H:%M:%S, a dot,
six microsecond digits, a space and the weekday byte in decimal. -/
def dtlDisplay (d : PyDateTime) (w : Nat) : List Char :=
  fmtDateTime d ++ '.' :: pad0 6 d.microsecond ++ ' ' :: natRepr w

/-- Unpacking by DTLHandler.unpack: twelve bytes are required by the
struct slices and indexing; the datetime constructor then validates the
decoded fields (none models its ValueError); the display assumes the
four-digit year padding of strftime (exact for years at least 1000). -/
def dtlUnpack (data : List Nat) : Option (List Char) :=
  match data with
  | y0 :: y1 :: mo :: d :: wd :: h :: mi :: se :: n0 :: n1 :: n2 :: n3 :: _ =>
      let nanos := n0 * 2 ^ 24 + n1 * 2 ^ 16 + n2 * 2 ^ 8 + n3
      let dt : PyDateTime :=
        ⟨y0 * 256 + y1, mo, d, h, mi, se, nanos / 1000⟩
      if dtValid dt then some (dtlDisplay dt wd) else none
  | _ => none

/-! ## Type dispatch (get_type_handler / pack_value / unpack_value)

The string type tag resolved by get_type_handler is modelled as an
inductive tag; the tag grammar itself is checked by the validator
model further below. -/

/-- Parsed S7 type tag. -/
inductive PlcTy where
  | bool | byte | word | int | dword | dint | real | dt | dtl
  | string (n : Nat) | wstring (n : Nat)
deriving DecidableEq, Repr

/-- Dispatch of pack_value to the per-type handler. -/
def packValue : PlcTy → PyVal → Option (List Nat)
  | .bool, v => some (boolPack v)
  | .byte, v => bytePack v
  | .word, v => wordPack v
  | .int, v => intPack v
  | .dword, v => dwordPack v
  | .dint, v => dintPack v
  | .real, v => realPack v
  | .dt, v => dtPack v
  | .dtl, v => dtlPack v
  | .string n, v => stringPack n v
  | .wstring n, v => wstringPack n v

/-- Dispatch of unpack_value to the per-type handler, each result
wrapped as the Python value the handler returns. -/
def unpackValue : PlcTy → List Nat → Option PyVal
  | .bool, d => (boolUnpack d).map .vBool
  | .byte, d => (byteUnpack d).map fun n => .vInt n
  | .word, d => (wordUnpack d).map fun n => .vInt n
  | .int, d => (intUnpack d).map .vInt
  | .dword, d => (dwordUnpack d).map fun n => .vInt n
  | .dint, d => (dintUnpack d).map .vInt
  | .real, d => (realUnpack d).map .vFloat
  | .dt, d => (dtUnpack d).map .vStr
  | .dtl, d => (dtlUnpack d).map .vStr
  | .string _, d => (stringUnpack d).map .vStr
  | .wstring _, d => (wstringUnpack d).map .vStr

/-- Size table used by read_value and calculate_db_size (a BOOL read
without a bit index falls through to the one-byte default). -/
def sizeOfTy : PlcTy → Nat
  | .bool => 1
  | .byte => 1
  | .word => 2
  | .int => 2
  | .dword => 4
  | .dint => 4
  | .real => 4
  | .dt => 8
  | .dtl => 12
  | .string n => n + 2
  | .wstring n => 2 + 2 + n * 2

/-! ## DB memory store (PLCSimulator.read_value / write_value)

A DB buffer is a list of byte values; exceptions inside the store are
caught and logged by the source, so read returns none (the sentinel)
and write returns the buffer as mutated up to the failure point. -/

/-- Python equality between the modelled values (booleans compare
numerically with numbers; strings never equal numbers). -/
def pyEq : PyVal → PyVal → Bool
  | .vBool a, .vBool b => a = b
  | .vBool a, .vInt n => (if a then (1 : Int) else 0) = n
  | .vInt n, .vBool a => n = (if a then 1 else 0)
  | .vInt m, .vInt n => m = n
  | .vFloat q, .vInt n => q = (n : ℚ)
  | .vInt n, .vFloat q => (n : ℚ) = q
  | .vFloat p, .vFloat q => p = q
  | .vFloat q, .vBool b => q = (if b then 1 else 0)
  | .vBool b, .vFloat q => (if b then (1 : ℚ) else 0) = q
  | .vStr a, .vStr b => a = b
  | .vDT a, .vDT b => a = b
  | .vDTL a w, .vDTL b u => a = b ∧ w = u
  | _, _ => false

/-- Membership test value in [True, 1, '1', 'true', 'yes'] of the BOOL
bit path of write_value, evaluated with Python equality. -/
def boolBitTruthy (v : PyVal) : Bool :=
  pyEq v (.vBool true) || pyEq v (.vInt 1) || pyEq v (.vStr ['1']) ||
    pyEq v (.vStr ['t', 'r', 'u', 'e']) || pyEq v (.vStr ['y', 'e', 's'])

/-- Arithmetic form of the Python expression current AND NOT (1 shl b)
on a nonnegative integer: every bit of current is kept except bit b. -/
def pyClearBit (c b : Nat) : Nat := c / 2 ^ (b + 1) * 2 ^ (b + 1) + c % 2 ^ b

/-- Byte-by-byte copy loop of write_value.  Each packed byte is stored
at offset + i in turn; the first out-of-range index raises IndexError,
which the surrounding handler catches, leaving the prefix written.
A ctypes uint8 store truncates modulo 256. -/
def writeBytes : List Nat → Nat → List Nat → List Nat
  | data, _, [] => data
  | data, pos, b :: rest =>
      if pos < data.length then writeBytes (data.set pos (b % 256)) (pos + 1) rest
      else data

/-- Model of the non-bit path of PLCSimulator.write_value on one DB
buffer: pack the value (a pack failure is caught and logged, leaving
the buffer untouched) and copy the bytes in a loop. -/
def writeValuePack (data : List Nat) (offset : Nat) (ty : PlcTy)
    (v : PyVal) : List Nat :=
  match packValue ty v with
  | some packed => writeBytes data offset packed
  | none => data

/-- Model of PLCSimulator.write_value on one DB buffer, continued: the
guard type == BOOL and bit is not None selects the single-bit path. -/
def writeValue (data : List Nat) (offset : Nat) (ty : PlcTy) (v : PyVal)
    (bit : Option Nat) : List Nat :=
  match bit with
  | some b =>
      if ty = .bool then
        if offset < data.length then
          let current := data.getD offset 0
          let nb := if boolBitTruthy v then current ||| 2 ^ b
            else pyClearBit current b
          data.set offset (nb % 256)
        else data
      else writeValuePack data offset ty v
  | none => writeValuePack data offset ty v

/-- Model of the non-bit path of PLCSimulator.read_value on one DB
buffer: bounds-check offset + size against the buffer, slice, and
unpack; none is the sentinel err return. -/
def readValueSized (data : List Nat) (offset : Nat) (ty : PlcTy) :
    Option PyVal :=
  let size := sizeOfTy ty
  if offset + size ≤ data.length then
    unpackValue ty ((data.drop offset).take size)
  else none

/-- Model of PLCSimulator.read_value on one DB buffer, continued: the
guard type == BOOL and bit is not None selects the single-bit path. -/
def readValue (data : List Nat) (offset : Nat) (ty : PlcTy)
    (bit : Option Nat) : Option PyVal :=
  match bit with
  | some b =>
      if ty = .bool then
        if offset < data.length then
          some (.vBool ((data.getD offset 0 >>> b) % 2 = 1))
        else none
      else readValueSized data offset ty
  | none => readValueSized data offset ty

/-! ## Synchronizer (PLCSimulator._sync_to_snap7_buffers)

One registered DB is a pair of buffers plus the recorded checksum; the
lock-holding branch of a synchronizer pass treats each DB
independently, so the model carries a single DB. -/

/-- Checksum of _calculate_checksum: a byte sum reduced modulo 2^32 at
every step. -/
def checksum (buf : List Nat) : Nat :=
  buf.foldl (fun acc b => (acc + b) % 2 ^ 32) 0

/-- Copy of ctypes.memmove(dst, src, n) over list buffers. -/
def memmove (dst src : List Nat) (n : Nat) : List Nat :=
  src.take n ++ dst.drop n

/-- State of one registered DB: working buffer, snap7 buffer, and the
checksum recorded at the previous pass. -/
structure DbSync where
  internal : List Nat
  external : List Nat
  recorded : Nat
deriving DecidableEq, Repr

/-- One lock-holding synchronizer pass over a DB: an external checksum
change copies external to internal and records it; otherwise internal
is copied outward and the fresh external checksum is recorded.  Both
memmove calls copy len(data) bytes, the internal length. -/
def syncPass (s : DbSync) : DbSync :=
  let cur := checksum s.external
  if cur ≠ s.recorded then
    { internal := memmove s.internal s.external s.internal.length,
      external := s.external, recorded := cur }
  else
    let ext := memmove s.external s.internal s.internal.length
    { internal := s.internal, external := ext, recorded := checksum ext }

/-! ## Config validator (sanity_check_config.check_type_validity) -/

/-- Uppercasing of the type tag (ASCII letters, as the tags use). -/
def asciiUpper (s : List Char) : List Char := s.map Char.toUpper

/-- Closed set of atomic type tags accepted by the validator. -/
def supportedAtoms : List (List Char) :=
  ["BOOL".data, "BYTE".data, "WORD".data, "INT".data, "DWORD".data,
    "DINT".data, "REAL".data, "DT".data, "DTL".data]

/-- Matcher for the tail of the anchored pattern: one or more digits
then a closing bracket ending the string. -/
def digitsRB : List Char → Bool
  | [] => false
  | [c] => c = ']'
  | c :: rest => c.isDigit && digitsRB rest

/-- Matcher requiring at least one digit before the bracket. -/
def tagTail : List Char → Bool
  | c :: rest => c.isDigit && digitsRB rest
  | [] => false

/-- Anchored match of head immediately followed by digits and a
closing bracket, i.e. the regex used for STRING and WSTRING tags. -/
def matchBracketTag (head u : List Char) : Bool :=
  head.isPrefixOf u && tagTail (u.drop head.length)

/-- Acceptance of check_type_validity: true models returning True and
false models the ValueError raise.  No bound is placed on the bracket
number by the source. -/
def checkTypeValidity (s : List Char) : Bool :=
  let u := asciiUpper s
  supportedAtoms.contains u || matchBracketTag "STRING[".data u ||
    matchBracketTag "WSTRING[".data u

/-! ## Script engine (ScriptEngine._execute_commands)

Parsed commands keep only what execution inspects: SET, WAIT and
WAIT_UNTIL are basic commands identified by a label and modelled by
their success flag (the ok oracle) and by the label appended to an
execution trace; comments and blank lines are skipped; LOOP and
END_LOOP drive the control flow.  The cooperative stop flag is false
throughout, matching the no-stop premise of the claims, and fuel makes
the recursive interpreter total (none = fuel exhausted, never reached
by the theorems). -/

/-- Executable command as produced by the parser. -/
inductive Cmd where
  | basic (k : Nat)
  | empty
  | loop (n : Nat)
  | endLoop
deriving DecidableEq, Repr

/-- Scan for the matching END_LOOP: the while loop of the LOOP branch,
walking loop_end forward while tracking nesting depth. -/
def findEnd (commands : List Cmd) (loopEnd : Nat) (depth : Nat) : Nat :=
  if h : loopEnd < commands.length ∧ 0 < depth then
    match commands.get ⟨loopEnd, h.1⟩ with
    | .loop _ => findEnd commands (loopEnd + 1) (depth + 1)
    | .endLoop => findEnd commands (loopEnd + 1) (depth - 1)
    | _ => findEnd commands (loopEnd + 1) depth
  else loopEnd
termination_by commands.length - loopEnd

mutual

/-- Interpreter of _execute_commands from an index: steps through
commands, returns the END_LOOP index to the enclosing loop handler (or
the list length at the end), pairs the result with the trace; a failing
basic command returns the -1 marker. -/
def execCmds (ok : Nat → Bool) (commands : List Cmd) :
    Nat → Nat → List Nat → Option (Int × List Nat)
  | 0, _, _ => none
  | fuel + 1, idx, tr =>
    if h : idx < commands.length then
      match commands.get ⟨idx, h⟩ with
      | .empty => execCmds ok commands fuel (idx + 1) tr
      | .basic k =>
          if ok k then execCmds ok commands fuel (idx + 1) (tr ++ [k])
          else some (-1, tr)
      | .endLoop => some ((idx : Int), tr)
      | .loop n =>
          let lEnd := findEnd commands (idx + 1) 1
          match execIters ok commands fuel n (idx + 1) tr with
          | none => none
          | some (false, tr2) => some (-1, tr2)
          | some (true, tr2) => execCmds ok commands fuel lEnd tr2
    else some ((idx : Int), tr)

/-- Iteration loop of the LOOP branch: runs the body from loop_start
the given number of times, re-entering the interpreter; a -1 result
aborts (false), otherwise iteration continues with the grown trace. -/
def execIters (ok : Nat → Bool) (commands : List Cmd) :
    Nat → Nat → Nat → List Nat → Option (Bool × List Nat)
  | 0, _, _, _ => none
  | _ + 1, 0, _, tr => some (true, tr)
  | fuel + 1, n + 1, loopStart, tr =>
      match execCmds ok commands fuel loopStart tr with
      | none => none
      | some (r, tr2) =>
          if r = -1 then some (false, tr2)
          else execIters ok commands fuel n loopStart tr2

end

/-! ## Structured scripts

A parsed script with balanced loops is the flattening of a structured
command tree; the denotation lists the labels of the basic commands in
execution order, each loop body repeated loop-count times. -/

/-- Structured script command. -/
inductive SCmd where
  | basic (k : Nat)
  | empty
  | loop (n : Nat) (body : List SCmd)
deriving Repr

mutual

/-- Flat command list of one structured command. -/
def flatten1 : SCmd → List Cmd
  | .basic k => [.basic k]
  | .empty => [.empty]
  | .loop n body => .loop n :: (flattenList body ++ [.endLoop])

/-- Flat command list of a structured script. -/
def flattenList : List SCmd → List Cmd
  | [] => []
  | c :: cs => flatten1 c ++ flattenList cs

end

mutual

/-- Trace denotation of one structured command. -/
def denote1 : SCmd → List Nat
  | .basic k => [k]
  | .empty => []
  | .loop n body => (List.replicate n (denoteList body)).flatten

/-- Trace denotation of a structured script. -/
def denoteList : List SCmd → List Nat
  | [] => []
  | c :: cs => denote1 c ++ denoteList cs

end

/-- Control reachability: from state (p, tr) the interpreter can reach
state (q, tr2) preserving every final result obtainable from there. -/
def Reaches (ok : Nat → Bool) (commands : List Cmd) (p : Nat)
    (tr : List Nat) (q : Nat) (tr2 : List Nat) : Prop :=
  ∀ r fuel, execCmds ok commands fuel q tr2 = some r →
    ∃ fuel2, execCmds ok commands fuel2 p tr = some r

/-- Predicate singling out the plain scalar kinds (bool, int, string)
that the boolean write paths are specified over. -/
def isBasicVal : PyVal → Prop
  | .vBool _ => True
  | .vInt _ => True
  | .vStr _ => True
  | _ => False

/-! # Theorems -/

/-- Claim C5, counterexample: BoolHandler.pack maps the string value
"false" to the byte 0x01, not to 0x00 as claimed, because any nonempty
Python string is truthy. -/
theorem boolPack_false_string_counterexample :
    boolPack (.vStr ['f', 'a', 'l', 's', 'e']) = [1] := by
  decide

/-- Claim C5, amended: BOOL pack writes the single byte 0x01 for every
truthy input and 0x00 for every falsy one; the numeric inputs false and
0 give 0x00, while true, 1 and every nonempty string, including not
only "true" and "yes" but also "false", "no" and "0", give 0x01. -/
theorem boolPack_truthiness :
    (∀ v : PyVal, boolPack v = [if truthy v then 1 else 0]) ∧
      boolPack (.vBool false) = [0] ∧ boolPack (.vInt 0) = [0] ∧
      boolPack (.vBool true) = [1] ∧ boolPack (.vInt 1) = [1] ∧
      boolPack (.vStr ['t', 'r', 'u', 'e']) = [1] ∧
      boolPack (.vStr ['y', 'e', 's']) = [1] ∧
      boolPack (.vStr ['f', 'a', 'l', 's', 'e']) = [1] ∧
      boolPack (.vStr ['n', 'o']) = [1] ∧
      boolPack (.vStr ['0']) = [1] := by
  refine ⟨fun v => rfl, ?_, ?_, ?_, ?_, ?_, ?_, ?_, ?_, ?_⟩ <;> decide

theorem digitsRB_iff (l : List Char) :
    digitsRB l = true ↔ ∃ ds, l = ds ++ [']'] ∧ ds.all Char.isDigit := by
  induction l with
  | nil =>
      constructor
      · intro h; exact absurd h (by decide)
      · rintro ⟨ds, h, -⟩; cases ds <;> simp at h
  | cons c rest ih =>
      cases rest with
      | nil =>
          constructor
          · intro h
            have hc : c = ']' := of_decide_eq_true h
            exact ⟨[], by simp [hc], by simp⟩
          · rintro ⟨ds, h, -⟩
            cases ds with
            | nil =>
                simp only [List.nil_append, List.cons.injEq] at h
                simp [digitsRB, h.1]
            | cons d ds2 =>
                exfalso
                have hl : ([c] : List Char).length =
                    ((d :: ds2) ++ [']']).length := by rw [h]
                simp [List.length_append] at hl
      | cons c2 rest2 =>
          constructor
          · intro h
            have h1 : c.isDigit = true ∧ digitsRB (c2 :: rest2) = true := by
              simpa [digitsRB, Bool.and_eq_true] using h
            obtain ⟨ds2, hrest, hall⟩ := ih.mp h1.2
            exact ⟨c :: ds2, by simp [hrest], by simp [h1.1, hall]⟩
          · rintro ⟨ds, h, hall⟩
            cases ds with
            | nil => simp at h
            | cons d ds2 =>
                simp only [List.cons_append, List.cons.injEq] at h
                obtain ⟨rfl, hrest⟩ := h
                simp only [List.all_cons, Bool.and_eq_true] at hall
                have h2 : digitsRB (c2 :: rest2) = true :=
                  ih.mpr ⟨ds2, hrest, hall.2⟩
                simp [digitsRB, hall.1, h2]

theorem tagTail_iff (l : List Char) :
    tagTail l = true ↔
      ∃ ds, l = ds ++ [']'] ∧ ds ≠ [] ∧ ds.all Char.isDigit := by
  cases l with
  | nil =>
      constructor
      · intro h; exact absurd h (by decide)
      · rintro ⟨ds, h, hne, -⟩; cases ds <;> simp_all
  | cons c rest =>
      constructor
      · intro h
        have h1 : c.isDigit = true ∧ digitsRB rest = true := by
          simpa [tagTail, Bool.and_eq_true] using h
        obtain ⟨ds2, hrest, hall⟩ := (digitsRB_iff rest).mp h1.2
        exact ⟨c :: ds2, by simp [hrest], by simp, by simp [h1.1, hall]⟩
      · rintro ⟨ds, h, hne, hall⟩
        cases ds with
        | nil => exact absurd rfl hne
        | cons d ds2 =>
            simp only [List.cons_append, List.cons.injEq] at h
            obtain ⟨rfl, hrest⟩ := h
            simp only [List.all_cons, Bool.and_eq_true] at hall
            have : digitsRB rest = true :=
              (digitsRB_iff rest).mpr ⟨ds2, hrest, hall.2⟩
            simp [tagTail, hall.1, this]

theorem matchBracketTag_iff (head u : List Char) :
    matchBracketTag head u = true ↔
      ∃ ds, u = head ++ ds ++ [']'] ∧ ds ≠ [] ∧ ds.all Char.isDigit := by
  constructor
  · intro h
    have h1 : head.isPrefixOf u = true ∧ tagTail (u.drop head.length) = true := by
      simpa [matchBracketTag, Bool.and_eq_true] using h
    obtain ⟨t, rfl⟩ := List.isPrefixOf_iff_prefix.mp h1.1
    rw [List.drop_left] at h1
    obtain ⟨ds, hds, hne, hall⟩ := (tagTail_iff t).mp h1.2
    exact ⟨ds, by simp [hds], hne, hall⟩
  · rintro ⟨ds, rfl, hne, hall⟩
    have hp : head.isPrefixOf (head ++ (ds ++ [']'])) = true :=
      List.isPrefixOf_iff_prefix.mpr (List.prefix_append head (ds ++ [']']))
    have ht : tagTail (ds ++ [']']) = true :=
      (tagTail_iff (ds ++ [']'])).mpr ⟨ds, rfl, hne, hall⟩
    unfold matchBracketTag
    rw [List.append_assoc, List.drop_left, hp, ht]
    rfl

/-- Claim C8, counterexample: the validator accepts the tag
STRING[999], although the claim states that lengths outside 1..254 are
rejected; the source places no bound on the bracketed number. -/
theorem checkTypeValidity_string999_counterexample :
    checkTypeValidity ("STRING[999]".data) = true := by decide

/-- Claim C8, amended: the validator accepts a type tag exactly when
its uppercased form is one of the nine closed atoms or consists of
STRING[ or WSTRING[ followed by one or more decimal digits and a
closing bracket; no range restriction is applied to the digits, so
STRING[0] and STRING[999] are both accepted. -/
theorem checkTypeValidity_charac :
    (∀ s : List Char,
      checkTypeValidity s = true ↔
        (asciiUpper s ∈ supportedAtoms ∨
          (∃ ds, asciiUpper s = "STRING[".data ++ ds ++ [']'] ∧
            ds ≠ [] ∧ ds.all Char.isDigit) ∨
          (∃ ds, asciiUpper s = "WSTRING[".data ++ ds ++ [']'] ∧
            ds ≠ [] ∧ ds.all Char.isDigit))) ∧
      checkTypeValidity ("STRING[0]".data) = true ∧
      checkTypeValidity ("string[999]".data) = true ∧
      checkTypeValidity ("FLOAT".data) = false ∧
      checkTypeValidity ("STRING[]".data) = false := by
  refine ⟨fun s => ?_, by decide, by decide, by decide, by decide⟩
  unfold checkTypeValidity
  simp only [Bool.or_eq_true, matchBracketTag_iff, List.contains, List.elem_iff]
  exact or_assoc

theorem getD_set_self (l : List Nat) (i : Nat) (a : Nat) (h : i < l.length) :
    (l.set i a).getD i 0 = a := by
  simp [List.getD_eq_getElem?_getD, List.getElem?_set_self h]

theorem getD_set_ne (l : List Nat) (i j : Nat) (a : Nat) (h : i ≠ j) :
    (l.set i a).getD j 0 = l.getD j 0 := by
  simp [List.getD_eq_getElem?_getD, List.getElem?_set_ne h]

theorem writeBytes_length (packed data : List Nat) (pos : Nat) :
    (writeBytes data pos packed).length = data.length := by
  induction packed generalizing data pos with
  | nil => rfl
  | cons b rest ih =>
      unfold writeBytes
      by_cases hp : pos < data.length
      · rw [if_pos hp, ih, List.length_set]
      · rw [if_neg hp]

theorem writeBytes_getD (packed data : List Nat) (pos j : Nat)
    (hj : j < data.length) :
    (writeBytes data pos packed).getD j 0 =
      if pos ≤ j ∧ j < pos + packed.length then packed.getD (j - pos) 0 % 256
      else data.getD j 0 := by
  induction packed generalizing data pos with
  | nil =>
      rw [if_neg (by simp only [List.length_nil]; omega)]
      rfl
  | cons b rest ih =>
      unfold writeBytes
      by_cases hp : pos < data.length
      · rw [if_pos hp]
        rw [ih (data.set pos (b % 256)) (pos + 1) (by simpa using hj)]
        by_cases h1 : pos + 1 ≤ j ∧ j < pos + 1 + rest.length
        · rw [if_pos h1, if_pos (by simp only [List.length_cons]; omega)]
          have hsub : j - pos = (j - (pos + 1)) + 1 := by omega
          rw [hsub, List.getD_cons_succ]
        · rw [if_neg h1]
          by_cases h2 : j = pos
          · subst h2
            rw [getD_set_self data j (b % 256) hj,
              if_pos (by simp only [List.length_cons]; omega)]
            simp [Nat.sub_self]
          · rw [getD_set_ne data pos j (b % 256) (fun hh => h2 hh.symm),
              if_neg (by simp only [List.length_cons]; omega)]
      · rw [if_neg hp, if_neg (by omega)]

/-- Claim C4, counterexample: a two-byte INT write at offset 1 of a
two-byte DB overruns the buffer by one byte, yet the first packed byte
is written before the failing store, so the buffer is not unchanged. -/
theorem writeValue_partial_write_counterexample :
    ([0, 0] : List Nat).length < 1 + sizeOfTy .int ∧
      writeValue [0, 0] 1 .int (.vInt 258) none ≠ [0, 0] := by
  constructor
  · decide
  · decide

/-- Claim C4, amended: a write whose packed bytes would extend past the
end of the DB buffer still returns normally (the IndexError is caught
and logged), but only the bytes beyond the buffer end are dropped: the
in-range prefix of the packed value is written, so the buffer keeps its
length, bytes inside the window take the packed prefix, and bytes
outside the window are unchanged. -/
theorem writeValue_out_of_range_partial :
    ∀ (data : List Nat) (offset : Nat) (ty : PlcTy) (v : PyVal)
      (packed : List Nat),
      packValue ty v = some packed →
      data.length < offset + packed.length →
      (writeValue data offset ty v none).length = data.length ∧
      ∀ j, j < data.length →
        (writeValue data offset ty v none).getD j 0 =
          if offset ≤ j ∧ j < offset + packed.length
          then packed.getD (j - offset) 0 % 256
          else data.getD j 0 := by
  intro data offset ty v packed hpack _hover
  have hw : writeValue data offset ty v none = writeBytes data offset packed := by
    unfold writeValue writeValuePack
    rw [hpack]
  rw [hw]
  exact ⟨writeBytes_length packed data offset,
    fun j hj => writeBytes_getD packed data offset j hj⟩

theorem writeValue_out_of_range_partial_witness :
    (writeValue [0, 0] 1 .int (.vInt 258) none).length =
        ([0, 0] : List Nat).length ∧
      ∀ j, j < ([0, 0] : List Nat).length →
        (writeValue [0, 0] 1 .int (.vInt 258) none).getD j 0 =
          if 1 ≤ j ∧ j < 1 + ([1, 2] : List Nat).length
          then ([1, 2] : List Nat).getD (j - 1) 0 % 256
          else ([0, 0] : List Nat).getD j 0 :=
  writeValue_out_of_range_partial [0, 0] 1 .int (.vInt 258) [1, 2]
    (by decide) (by decide)

theorem checksum_foldl (l : List Nat) (a : Nat) (ha : a < 2 ^ 32) :
    l.foldl (fun acc b => (acc + b) % 2 ^ 32) a = (a + l.sum) % 2 ^ 32 := by
  induction l generalizing a with
  | nil => exact (Nat.mod_eq_of_lt ha).symm
  | cons b rest ih =>
      simp only [List.foldl_cons, List.sum_cons]
      rw [ih ((a + b) % 2 ^ 32) (Nat.mod_lt _ (by norm_num))]
      rw [Nat.mod_add_mod]
      omega

theorem checksum_eq_sum_mod (l : List Nat) : checksum l = l.sum % 2 ^ 32 := by
  unfold checksum
  rw [checksum_foldl l 0 (by norm_num)]
  simp

theorem memmove_full (dst src : List Nat) (h : dst.length = src.length) :
    memmove dst src dst.length = src := by
  unfold memmove
  rw [h, List.take_length, ← h, List.drop_length, List.append_nil]

/-- Claim C3: a synchronizer pass that takes the lock leaves the
external buffer byte-for-byte equal to the internal one and records the
byte-sum checksum (modulo 2^32) of the external buffer; a changed
external checksum makes the copy run external to internal, an unchanged
one internal to external. -/
theorem syncPass_converges :
    ∀ s : DbSync, s.internal.length = s.external.length →
      (syncPass s).external = (syncPass s).internal ∧
      (syncPass s).recorded = (syncPass s).external.sum % 2 ^ 32 ∧
      (checksum s.external ≠ s.recorded →
        (syncPass s).internal = s.external ∧
          (syncPass s).external = s.external) ∧
      (checksum s.external = s.recorded →
        (syncPass s).external = s.internal ∧
          (syncPass s).internal = s.internal) := by
  intro s hlen
  by_cases hc : checksum s.external = s.recorded
  · have hstep : syncPass s =
        { internal := s.internal,
          external := memmove s.external s.internal s.internal.length,
          recorded := checksum (memmove s.external s.internal s.internal.length) } := by
      unfold syncPass
      rw [if_neg (by simpa using hc)]
    have hmm : memmove s.external s.internal s.internal.length = s.internal := by
      have := memmove_full s.external s.internal hlen.symm
      rwa [← hlen] at this
    rw [hstep, hmm]
    refine ⟨rfl, checksum_eq_sum_mod s.internal, fun hne => absurd hc hne,
      fun _ => ⟨rfl, rfl⟩⟩
  · have hstep : syncPass s =
        { internal := memmove s.internal s.external s.internal.length,
          external := s.external, recorded := checksum s.external } := by
      unfold syncPass
      rw [if_pos (by simpa using hc)]
    have hmm : memmove s.internal s.external s.internal.length = s.external :=
      memmove_full s.internal s.external hlen
    rw [hstep, hmm]
    exact ⟨rfl, checksum_eq_sum_mod s.external, fun _ => ⟨rfl, rfl⟩,
      fun he => absurd he hc⟩

theorem syncPass_converges_witness :
    (syncPass ⟨[1, 2], [3, 4], 7⟩).external =
        (syncPass ⟨[1, 2], [3, 4], 7⟩).internal ∧
      (syncPass ⟨[1, 2], [3, 4], 7⟩).recorded =
        (syncPass ⟨[1, 2], [3, 4], 7⟩).external.sum % 2 ^ 32 ∧
      (checksum [3, 4] ≠ 7 →
        (syncPass ⟨[1, 2], [3, 4], 7⟩).internal = [3, 4] ∧
          (syncPass ⟨[1, 2], [3, 4], 7⟩).external = [3, 4]) ∧
      (checksum [3, 4] = 7 →
        (syncPass ⟨[1, 2], [3, 4], 7⟩).external = [1, 2] ∧
          (syncPass ⟨[1, 2], [3, 4], 7⟩).internal = [1, 2]) :=
  syncPass_converges ⟨[1, 2], [3, 4], 7⟩ rfl

theorem encode32_length (q : ℚ) (bs : List Nat) (h : encode32 q = some bs) :
    bs.length = 4 := by
  unfold encode32 at h
  simp only [fpBits, pack32] at h
  repeat' split at h
  all_goals first
    | (cases h; rfl)
    | exact absurd h (by simp)

theorem dtPackCore_length (d : PyDateTime) (bs : List Nat)
    (h : dtPackCore d = some bs) : bs.length = 8 := by
  unfold dtPackCore at h
  simp only [] at h
  repeat' split at h
  all_goals first
    | (cases h; rfl)
    | exact absurd h (by simp)

theorem dtlPackCore_length (d : PyDateTime) (w : Int) (bs : List Nat)
    (h : dtlPackCore d w = some bs) : bs.length = 12 := by
  unfold dtlPackCore at h
  simp only [pack16, pack32] at h
  repeat' split at h
  all_goals first
    | (cases h; rfl)
    | exact absurd h (by simp)

theorem stringPack_length (n : Nat) (v : PyVal) (bs : List Nat)
    (s0 : List Char) (hs : strOfVal v = some s0)
    (h : stringPack n v = some bs) : bs.length = 2 + min s0.length n := by
  simp only [stringPack, hs, Option.bind_eq_bind, Option.some_bind] at h
  split_ifs at h
  cases h
  simp only [List.length_cons, List.length_map, List.length_take]
  omega

/-- Claim C2, counterexample: packing the two-character string HI into
STRING[8] yields four bytes, not the ten bytes of the size contract;
the handler emits only the header and the actual characters. -/
theorem stringPack_short_counterexample :
    (stringPack 8 (.vStr ['H', 'I'])).map List.length ≠
      some (sizeOfTy (.string 8)) := by decide

/-- Claim C2, amended: every fixed-size handler packs to its contract
size (BOOL 1, BYTE 1, WORD 2, INT 2, DWORD 4, DINT 4, REAL 4, DT 8,
DTL 12) whenever packing succeeds, but STRING[n] packs to
2 + min(len(v), n) bytes and WSTRING[n] to 4 bytes plus the UTF-16
encoding of the truncated value, reaching n + 2 and 2n + 4 only when
the value fills the declared capacity. -/
theorem packSizes :
    (∀ v : PyVal, (boolPack v).length = 1) ∧
      (∀ v bs, bytePack v = some bs → bs.length = 1) ∧
      (∀ v bs, wordPack v = some bs → bs.length = 2) ∧
      (∀ v bs, intPack v = some bs → bs.length = 2) ∧
      (∀ v bs, dwordPack v = some bs → bs.length = 4) ∧
      (∀ v bs, dintPack v = some bs → bs.length = 4) ∧
      (∀ v bs, realPack v = some bs → bs.length = 4) ∧
      (∀ v bs, dtPack v = some bs → bs.length = 8) ∧
      (∀ v bs, dtlPack v = some bs → bs.length = 12) ∧
      (∀ n v bs s0, strOfVal v = some s0 → stringPack n v = some bs →
        bs.length = 2 + min s0.length n) ∧
      (∀ n v bs s0, strOfVal v = some s0 → n ≤ s0.length →
        stringPack n v = some bs → bs.length = n + 2) ∧
      (∀ n v bs s0, strOfVal v = some s0 → wstringPack n v = some bs →
        bs.length = 4 + (utf16beEncode (s0.take n)).length) := by
  refine ⟨fun v => rfl, ?_, ?_, ?_, ?_, ?_, ?_, ?_, ?_, ?_, ?_, ?_⟩
  · intro v bs h
    rcases ho : intOfVal v with - | n <;> simp [bytePack, ho] at h
    simp [← h]
  · intro v bs h
    rcases ho : intOfVal v with - | n <;> simp [wordPack, ho] at h
    simp [← h.2, pack16]
  · intro v bs h
    rcases ho : intOfVal v with - | n <;> simp [intPack, ho] at h
    simp [← h.2, pack16]
  · intro v bs h
    rcases ho : intOfVal v with - | n <;> simp [dwordPack, ho] at h
    simp [← h.2, pack32]
  · intro v bs h
    rcases ho : intOfVal v with - | n <;> simp [dintPack, ho] at h
    simp [← h.2, pack32]
  · intro v bs h
    rcases hf : floatOfVal v with - | q <;> simp [realPack, hf] at h
    exact encode32_length q bs h
  · intro v bs h
    cases v <;> simp [dtPack] at h
    · rename_i s
      rcases hp : parseDT s with - | d <;> simp [hp] at h
      exact dtPackCore_length d bs h
    · rename_i d
      exact dtPackCore_length d bs h
  · intro v bs h
    cases v <;> simp [dtlPack] at h
    · rename_i s
      rcases hp : parseDTL s with - | p <;> simp [hp] at h
      exact dtlPackCore_length p.1 p.2 bs h
    · rename_i d
      exact dtlPackCore_length d _ bs h
    · rename_i d w
      exact dtlPackCore_length d w bs h
  · intro n v bs s0 hs h
    exact stringPack_length n v bs s0 hs h
  · intro n v bs s0 hs hn h
    rw [stringPack_length n v bs s0 hs h, Nat.min_eq_right hn]
    omega
  · intro n v bs s0 hs h
    simp only [wstringPack, hs, Option.bind_eq_bind, Option.some_bind] at h
    split_ifs at h
    cases h
    simp [pack16]
    omega

theorem packSizes_witness :
    (boolPack (.vBool true)).length = 1 ∧
      ([7] : List Nat).length = 1 ∧
      ([0, 5] : List Nat).length = 2 ∧
      ([255, 255] : List Nat).length = 2 ∧
      ([8, 2, 72, 73] : List Nat).length = 2 + min 2 8 ∧
      ([2, 2, 72, 73] : List Nat).length = 2 + 2 :=
  ⟨packSizes.1 (.vBool true),
    packSizes.2.1 (.vInt 7) [7] (by decide),
    packSizes.2.2.1 (.vInt 5) [0, 5] (by decide),
    packSizes.2.2.2.1 (.vInt (-1)) [255, 255] (by decide),
    packSizes.2.2.2.2.2.2.2.2.2.1 8 (.vStr ['H', 'I']) [8, 2, 72, 73]
      ['H', 'I'] rfl (by decide),
    packSizes.2.2.2.2.2.2.2.2.2.2.1 2 (.vStr ['H', 'I']) [2, 2, 72, 73]
      ['H', 'I'] rfl (by decide) (by decide)⟩

set_option maxRecDepth 4096 in
theorem bitByteFacts : ∀ c, c < 256 → ∀ b, b < 8 →
    ((c ||| 2 ^ b) % 256) / 2 ^ b % 2 = 1 ∧
    (pyClearBit c b % 256) / 2 ^ b % 2 = 0 ∧
    ∀ i, i < 8 → i ≠ b →
      ((c ||| 2 ^ b) % 256) / 2 ^ i % 2 = c / 2 ^ i % 2 ∧
      (pyClearBit c b % 256) / 2 ^ i % 2 = c / 2 ^ i % 2 := by decide

theorem writeValue_bool_bit_unfold (data : List Nat) (offset b : Nat)
    (v : PyVal) :
    writeValue data offset .bool v (some b) =
      if offset < data.length then
        data.set offset
          ((if boolBitTruthy v then data.getD offset 0 ||| 2 ^ b
            else pyClearBit (data.getD offset 0) b) % 256)
      else data := rfl

theorem writeValue_bool_bit_set (data : List Nat) (offset b : Nat) (v : PyVal)
    (ho : offset < data.length) :
    writeValue data offset .bool v (some b) =
      data.set offset
        ((if boolBitTruthy v then data.getD offset 0 ||| 2 ^ b
          else pyClearBit (data.getD offset 0) b) % 256) := by
  rw [writeValue_bool_bit_unfold, if_pos ho]

theorem getD_lt_of_forall (data : List Nat) (offset : Nat)
    (ho : offset < data.length) (hb : ∀ x ∈ data, x < 256) :
    data.getD offset 0 < 256 := by
  rw [List.getD_eq_getElem?_getD, List.getElem?_eq_getElem ho,
    Option.getD_some]
  exact hb _ (List.getElem_mem ho)

/-- Claim C9: a BOOL bit-write with bit 0..7 at an in-range offset
keeps the buffer length, leaves every byte other than the target byte
unchanged, and preserves every bit of the target byte other than the
target bit; the literal scenario of setting bits 3 and 5 of a zero byte
yields the raw byte 0x28 with both bit-reads answering true. -/
theorem boolBitWrite_frame :
    (∀ (data : List Nat) (offset b : Nat) (v : PyVal),
      offset < data.length → b ≤ 7 → (∀ x ∈ data, x < 256) →
      (writeValue data offset .bool v (some b)).length = data.length ∧
      (∀ j, j ≠ offset →
        (writeValue data offset .bool v (some b)).getD j 0 = data.getD j 0) ∧
      (∀ i, i ≤ 7 → i ≠ b →
        (writeValue data offset .bool v (some b)).getD offset 0 / 2 ^ i % 2 =
          data.getD offset 0 / 2 ^ i % 2)) ∧
    writeValue (writeValue [0] 0 .bool (.vBool true) (some 3)) 0 .bool
        (.vBool true) (some 5) = [40] ∧
    readValue [40] 0 .bool (some 3) = some (.vBool true) ∧
    readValue [40] 0 .bool (some 5) = some (.vBool true) := by
  refine ⟨?_, by decide, by decide, by decide⟩
  intro data offset b v ho hb hbytes
  have hcur : data.getD offset 0 < 256 := getD_lt_of_forall data offset ho hbytes
  rw [writeValue_bool_bit_set data offset b v ho]
  refine ⟨List.length_set data offset _, ?_, ?_⟩
  · intro j hj
    exact getD_set_ne data offset j _ (fun hh => hj hh.symm)
  · intro i hi hib
    rw [getD_set_self data offset _ ho]
    have hfacts := bitByteFacts (data.getD offset 0) hcur b (by omega)
    have hpres := hfacts.2.2 i (by omega) hib
    by_cases htv : boolBitTruthy v
    · rw [if_pos htv]; exact hpres.1
    · rw [if_neg htv]; exact hpres.2

theorem boolBitWrite_frame_witness :
    (writeValue [9, 9] 0 .bool (.vBool true) (some 3)).length =
        ([9, 9] : List Nat).length ∧
      (∀ j, j ≠ 0 →
        (writeValue [9, 9] 0 .bool (.vBool true) (some 3)).getD j 0 =
          ([9, 9] : List Nat).getD j 0) ∧
      (∀ i, i ≤ 7 → i ≠ 3 →
        (writeValue [9, 9] 0 .bool (.vBool true) (some 3)).getD 0 0 / 2 ^ i % 2 =
          ([9, 9] : List Nat).getD 0 0 / 2 ^ i % 2) :=
  boolBitWrite_frame.1 [9, 9] 0 3 (.vBool true) (by decide) (by decide)
    (by decide)

/-- Claim C10: the BOOL bit path of write_value sets the target bit
exactly when the value compares equal (by Python equality) to one of
True, 1, the string 1, the string true, or the string yes; the
membership is case-sensitive for strings, so the capitalised spellings,
the string on, the string false, and every integer other than one clear
the bit, unlike the codec pack path which bytes any truthy value to
0x01. -/
theorem boolBitPath_truthy_charac :
    (∀ v : PyVal, isBasicVal v →
      (boolBitTruthy v = true ↔
        v ∈ ([.vBool true, .vInt 1, .vStr ['1'],
          .vStr ['t', 'r', 'u', 'e'], .vStr ['y', 'e', 's']] : List PyVal))) ∧
    (∀ (data : List Nat) (offset b : Nat) (v : PyVal),
      offset < data.length → b ≤ 7 → (∀ x ∈ data, x < 256) →
      ((writeValue data offset .bool v (some b)).getD offset 0 / 2 ^ b % 2 = 1 ↔
        boolBitTruthy v = true)) ∧
    boolBitTruthy (.vStr ['T', 'r', 'u', 'e']) = false ∧
    boolBitTruthy (.vStr ['T', 'R', 'U', 'E']) = false ∧
    boolBitTruthy (.vStr ['o', 'n']) = false ∧
    boolBitTruthy (.vStr ['f', 'a', 'l', 's', 'e']) = false ∧
    boolBitTruthy (.vInt 2) = false ∧
    boolBitTruthy (.vInt 0) = false ∧
    boolPack (.vInt 2) = [1] ∧
    boolPack (.vStr ['f', 'a', 'l', 's', 'e']) = [1] ∧
    writeValue [255] 0 .bool (.vInt 2) (some 0) = [254] := by
  refine ⟨?_, ?_, by decide, by decide, by decide, by decide, by decide,
    by decide, by decide, by decide, by decide⟩
  · intro v hv
    cases v with
    | vBool b => cases b <;> simp [boolBitTruthy, pyEq]
    | vInt n => simp [boolBitTruthy, pyEq]
    | vStr s =>
        simp [boolBitTruthy, pyEq]
        exact or_assoc
    | vFloat q => exact absurd hv (by simp [isBasicVal])
    | vDT d => exact absurd hv (by simp [isBasicVal])
    | vDTL d w => exact absurd hv (by simp [isBasicVal])
  · intro data offset b v ho hb hbytes
    have hcur : data.getD offset 0 < 256 :=
      getD_lt_of_forall data offset ho hbytes
    rw [writeValue_bool_bit_set data offset b v ho,
      getD_set_self data offset _ ho]
    have hfacts := bitByteFacts (data.getD offset 0) hcur b (by omega)
    by_cases htv : boolBitTruthy v
    · rw [if_pos htv, hfacts.1]
      simp [htv]
    · rw [if_neg htv, hfacts.2.1]
      simp [htv]

theorem boolBitPath_truthy_charac_witness :
    (boolBitTruthy (.vStr ['o', 'n']) = true ↔
      (.vStr ['o', 'n'] : PyVal) ∈
        ([.vBool true, .vInt 1, .vStr ['1'],
          .vStr ['t', 'r', 'u', 'e'], .vStr ['y', 'e', 's']] : List PyVal)) ∧
    ((writeValue [255] 0 .bool (.vInt 2) (some 0)).getD 0 0 / 2 ^ 0 % 2 = 1 ↔
      boolBitTruthy (.vInt 2) = true) :=
  ⟨boolBitPath_truthy_charac.1 (.vStr ['o', 'n']) trivial,
    boolBitPath_truthy_charac.2.1 [255] 0 0 (.vInt 2) (by decide) (by decide)
      (by decide)⟩

/-- Claim C6, counterexample: STRING unpack does not fail on a buffer
shorter than the two-byte header plus the announced payload: with a
header announcing five payload bytes but only one supplied, it silently
returns the truncated one-character string. -/
theorem stringUnpack_short_counterexample :
    stringUnpack [8, 5, 65] = some ['A'] := by decide

/-- Claim C6, amended: the fixed-size numeric handlers and DTL do fail
on every buffer shorter than their size (BOOL and BYTE below 1, WORD
and INT below 2, DWORD, DINT and REAL below 4, DTL below 12), but DT
needs only 7 of its 8 bytes and succeeds there, and the string
handlers require only their headers (2 bytes for STRING, 4 for
WSTRING), silently truncating a missing payload instead of failing. -/
theorem unpack_short_buffer :
    (∀ d : List Nat, d.length < 1 → boolUnpack d = none) ∧
      (∀ d : List Nat, d.length < 1 → byteUnpack d = none) ∧
      (∀ d : List Nat, d.length < 2 → wordUnpack d = none) ∧
      (∀ d : List Nat, d.length < 2 → intUnpack d = none) ∧
      (∀ d : List Nat, d.length < 4 → dwordUnpack d = none) ∧
      (∀ d : List Nat, d.length < 4 → dintUnpack d = none) ∧
      (∀ d : List Nat, d.length < 4 → realUnpack d = none) ∧
      (∀ d : List Nat, d.length < 12 → dtlUnpack d = none) ∧
      (∀ d : List Nat, d.length < 7 → dtUnpack d = none) ∧
      (dtUnpack [0, 0, 0, 0, 0, 0, 0]).isSome = true ∧
      (∀ d : List Nat, d.length < 2 → stringUnpack d = none) ∧
      stringUnpack [8, 5, 65] = some ['A'] ∧
      (∀ d : List Nat, d.length < 4 → wstringUnpack d = none) ∧
      wstringUnpack [0, 8, 0, 5, 0, 65] = some ['A'] := by
  refine ⟨?_, ?_, ?_, ?_, ?_, ?_, ?_, ?_, ?_, by decide, ?_, by decide,
    ?_, by decide⟩
  · intro d h
    rcases d with - | ⟨b0, rest⟩
    · rfl
    · simp only [List.length_cons] at h; omega
  · intro d h
    rcases d with - | ⟨b0, rest⟩
    · rfl
    · simp only [List.length_cons] at h; omega
  · intro d h
    rcases d with - | ⟨b0, - | ⟨b1, rest⟩⟩ <;>
      first
        | rfl
        | (simp only [List.length_cons] at h; omega)
  · intro d h
    rcases d with - | ⟨b0, - | ⟨b1, rest⟩⟩ <;>
      first
        | rfl
        | (simp only [List.length_cons] at h; omega)
  · intro d h
    rcases d with - | ⟨b0, - | ⟨b1, - | ⟨b2, - | ⟨b3, rest⟩⟩⟩⟩ <;>
      first
        | rfl
        | (simp only [List.length_cons] at h; omega)
  · intro d h
    rcases d with - | ⟨b0, - | ⟨b1, - | ⟨b2, - | ⟨b3, rest⟩⟩⟩⟩ <;>
      first
        | rfl
        | (simp only [List.length_cons] at h; omega)
  · intro d h
    unfold realUnpack
    rw [if_pos h]
  · intro d h
    rcases d with - | ⟨b0, - | ⟨b1, - | ⟨b2, - | ⟨b3, - | ⟨b4, - | ⟨b5,
      - | ⟨b6, - | ⟨b7, - | ⟨b8, - | ⟨b9, - | ⟨b10, - | ⟨b11,
      rest⟩⟩⟩⟩⟩⟩⟩⟩⟩⟩⟩⟩ <;>
      first
        | rfl
        | (simp only [List.length_cons] at h; omega)
  · intro d h
    rcases d with - | ⟨b0, - | ⟨b1, - | ⟨b2, - | ⟨b3, - | ⟨b4, - | ⟨b5,
      - | ⟨b6, rest⟩⟩⟩⟩⟩⟩⟩ <;>
      first
        | rfl
        | (simp only [List.length_cons] at h; omega)
  · intro d h
    rcases d with - | ⟨b0, - | ⟨b1, rest⟩⟩ <;>
      first
        | rfl
        | (simp only [List.length_cons] at h; omega)
  · intro d h
    rcases d with - | ⟨b0, - | ⟨b1, - | ⟨b2, - | ⟨b3, rest⟩⟩⟩⟩ <;>
      first
        | rfl
        | (simp only [List.length_cons] at h; omega)

theorem unpack_short_buffer_witness :
    wordUnpack [5] = none ∧ dtlUnpack [1, 2, 3] = none ∧
      dtUnpack [0, 0, 0] = none ∧ realUnpack [1, 2, 3] = none :=
  ⟨unpack_short_buffer.2.2.1 [5] (by decide),
    unpack_short_buffer.2.2.2.2.2.2.2.1 [1, 2, 3] (by decide),
    unpack_short_buffer.2.2.2.2.2.2.2.2.1 [0, 0, 0] (by decide),
    unpack_short_buffer.2.2.2.2.2.2.1 [1, 2, 3] (by decide)⟩

theorem shift2_eq (a : ℚ) (k : ℤ) : shift2 a k = a * (2 : ℚ) ^ k := by
  unfold shift2
  split_ifs with h
  · rw [← zpow_natCast, Int.toNat_of_nonneg h]
  · rw [← zpow_natCast, Int.toNat_of_nonneg (by omega : (0:ℤ) ≤ -k),
      div_eq_mul_inv, ← zpow_neg, neg_neg]

theorem rne_intCast (n : ℤ) : rne (n : ℚ) = n := by
  unfold rne
  rw [Int.floor_intCast]
  norm_num

theorem two_zpow_add_one (x : ℤ) : (2 : ℚ) ^ (x + 1) = 2 ^ x * 2 :=
  zpow_add_one₀ (by norm_num) x

theorem flog2Up_spec : ∀ (fuel : Nat) (a : ℚ) (acc : ℤ), 1 ≤ a →
    a < 2 ^ fuel →
    (2 : ℚ) ^ (flog2Up fuel a acc - acc) ≤ a ∧
      a < 2 ^ (flog2Up fuel a acc - acc + 1) := by
  intro fuel
  induction fuel with
  | zero =>
      intro a acc h1 h2
      norm_num at h2
      linarith
  | succ fuel ih =>
      intro a acc h1 h2
      unfold flog2Up
      split_ifs with hlt
      · constructor
        · simpa using h1
        · simpa using hlt
      · push_neg at hlt
        obtain ⟨hr1, hr2⟩ := ih (a / 2) (acc + 1) (by linarith)
          (by rw [div_lt_iff₀ (by norm_num : (0:ℚ) < 2)]
              calc a < 2 ^ (fuel + 1) := h2
                _ = 2 ^ fuel * 2 := by ring)
        rw [le_div_iff₀ (by norm_num : (0:ℚ) < 2)] at hr1
        rw [div_lt_iff₀ (by norm_num : (0:ℚ) < 2)] at hr2
        constructor
        · have hA : flog2Up fuel (a / 2) (acc + 1) - acc =
              flog2Up fuel (a / 2) (acc + 1) - (acc + 1) + 1 := by omega
          rw [hA, two_zpow_add_one]
          linarith
        · have hB : flog2Up fuel (a / 2) (acc + 1) - acc + 1 =
              flog2Up fuel (a / 2) (acc + 1) - (acc + 1) + 1 + 1 := by omega
          rw [hB, two_zpow_add_one]
          linarith

theorem flog2Down_spec : ∀ (fuel : Nat) (a : ℚ) (acc : ℤ), 0 < a → a < 2 →
    1 ≤ a * 2 ^ fuel →
    (2 : ℚ) ^ (flog2Down fuel a acc - acc) ≤ a ∧
      a < 2 ^ (flog2Down fuel a acc - acc + 1) := by
  intro fuel
  induction fuel with
  | zero =>
      intro a acc h0 h2 hf
      norm_num at hf
      unfold flog2Down
      constructor
      · simpa using hf
      · simpa using h2
  | succ fuel ih =>
      intro a acc h0 h2 hf
      unfold flog2Down
      split_ifs with hge
      · constructor
        · simpa using hge
        · simpa using h2
      · push_neg at hge
        obtain ⟨hr1, hr2⟩ := ih (a * 2) (acc - 1) (by linarith) (by linarith)
          (by calc (1:ℚ) ≤ a * 2 ^ (fuel + 1) := hf
                _ = a * 2 * 2 ^ fuel := by ring)
        have hA : flog2Down fuel (a * 2) (acc - 1) - (acc - 1) =
            flog2Down fuel (a * 2) (acc - 1) - acc + 1 := by omega
        rw [hA, two_zpow_add_one] at hr1
        have hB : flog2Down fuel (a * 2) (acc - 1) - (acc - 1) + 1 =
            flog2Down fuel (a * 2) (acc - 1) - acc + 1 + 1 := by omega
        rw [hB, two_zpow_add_one] at hr2
        constructor
        · linarith
        · linarith

theorem flog2_spec (a : ℚ) (ha : 0 < a) :
    (2 : ℚ) ^ flog2 a ≤ a ∧ a < 2 ^ (flog2 a + 1) := by
  have hnum : (1 : ℤ) ≤ a.num := by
    have := Rat.num_pos.mpr ha
    omega
  unfold flog2
  split_ifs with h1
  · have hle : a ≤ (a.num : ℚ) := by
      conv_lhs => rw [← Rat.num_div_den a]
      rw [div_le_iff₀ (by positivity : (0:ℚ) < (a.den : ℚ))]
      have hd1 : (1 : ℚ) ≤ (a.den : ℚ) := by
        exact_mod_cast Nat.one_le_iff_ne_zero.mpr a.den_nz
      have hnq : (0 : ℚ) < (a.num : ℚ) := by exact_mod_cast (by omega : (0:ℤ) < a.num)
      nlinarith
    have hbound : a < 2 ^ a.num.toNat := by
      calc a ≤ (a.num : ℚ) := hle
        _ = (a.num.toNat : ℚ) := by
            rw [show ((a.num.toNat : ℚ)) = ((a.num.toNat : ℤ) : ℚ) by push_cast; ring,
              Int.toNat_of_nonneg (by omega : (0:ℤ) ≤ a.num)]
        _ < 2 ^ a.num.toNat := by
            exact_mod_cast Nat.lt_two_pow a.num.toNat
    have := flog2Up_spec a.num.toNat a 0 h1 hbound
    simpa using this
  · push_neg at h1
    have hge : (1 : ℚ) / (a.den : ℚ) ≤ a := by
      conv_rhs => rw [← Rat.num_div_den a]
      apply div_le_div_of_nonneg_right ?_ (by positivity)
      · exact_mod_cast hnum
    have hfuel : (1 : ℚ) ≤ a * 2 ^ a.den := by
      have hden : (a.den : ℚ) < 2 ^ a.den := by
        exact_mod_cast Nat.lt_two_pow a.den
      have hdpos : (0:ℚ) < (a.den : ℚ) := by positivity
      calc (1:ℚ) = (1 / (a.den : ℚ)) * (a.den : ℚ) := by
            field_simp
        _ ≤ a * (a.den : ℚ) := by
            apply mul_le_mul_of_nonneg_right hge (le_of_lt hdpos)
        _ ≤ a * 2 ^ a.den := by
            apply mul_le_mul_of_nonneg_left (le_of_lt hden) (le_of_lt ha)
    have := flog2Down_spec a.den a 0 ha (by linarith) hfuel
    simpa using this

theorem flog2_eq_of (a : ℚ) (k : ℤ) (ha : 0 < a) (h1 : 2 ^ k ≤ a)
    (h2 : a < 2 ^ (k + 1)) : flog2 a = k := by
  obtain ⟨hs1, hs2⟩ := flog2_spec a ha
  by_contra hne
  rcases lt_or_gt_of_ne hne with hlt | hgt
  · have : a < 2 ^ k := by
      calc a < 2 ^ (flog2 a + 1) := hs2
        _ ≤ 2 ^ k := zpow_le_zpow_right₀ (by norm_num) (by omega)
    linarith
  · have : a < 2 ^ flog2 a := by
      calc a < 2 ^ (k + 1) := h2
        _ ≤ 2 ^ flog2 a := zpow_le_zpow_right₀ (by norm_num) (by omega)
    linarith

theorem two_pow_cast (n : Nat) : ((2 : ℚ) ^ n) = (2 : ℚ) ^ (n : ℤ) :=
  (zpow_natCast 2 n).symm

theorem decode_fpBits (sg E F : Nat) (hs : sg ≤ 1) (hE : E ≤ 254)
    (hF : F < 2 ^ 23) :
    decode32 (fpBits sg E F) = some (valN sg E F) := by
  have hwlt : sg * 2 ^ 31 + E * 2 ^ 23 + F < 2 ^ 32 := by omega
  show decode32 [(sg * 2 ^ 31 + E * 2 ^ 23 + F) / 2 ^ 24 % 256,
    (sg * 2 ^ 31 + E * 2 ^ 23 + F) / 2 ^ 16 % 256,
    (sg * 2 ^ 31 + E * 2 ^ 23 + F) / 2 ^ 8 % 256,
    (sg * 2 ^ 31 + E * 2 ^ 23 + F) % 256] = some (valN sg E F)
  unfold decode32
  simp only []
  rw [if_pos ⟨Nat.mod_lt _ (by norm_num), Nat.mod_lt _ (by norm_num),
    Nat.mod_lt _ (by norm_num), Nat.mod_lt _ (by norm_num)⟩]
  have hrec : (sg * 2 ^ 31 + E * 2 ^ 23 + F) / 2 ^ 24 % 256 * 2 ^ 24 +
      ((sg * 2 ^ 31 + E * 2 ^ 23 + F) / 2 ^ 16 % 256 * 2 ^ 16 +
      ((sg * 2 ^ 31 + E * 2 ^ 23 + F) / 2 ^ 8 % 256 * 2 ^ 8 +
      (sg * 2 ^ 31 + E * 2 ^ 23 + F) % 256)) =
      sg * 2 ^ 31 + E * 2 ^ 23 + F := by omega
  have hrec2 : (sg * 2 ^ 31 + E * 2 ^ 23 + F) / 2 ^ 24 % 256 * 2 ^ 24 +
      (sg * 2 ^ 31 + E * 2 ^ 23 + F) / 2 ^ 16 % 256 * 2 ^ 16 +
      (sg * 2 ^ 31 + E * 2 ^ 23 + F) / 2 ^ 8 % 256 * 2 ^ 8 +
      (sg * 2 ^ 31 + E * 2 ^ 23 + F) % 256 =
      sg * 2 ^ 31 + E * 2 ^ 23 + F := by omega
  simp only [hrec, hrec2]
  have hEe : (sg * 2 ^ 31 + E * 2 ^ 23 + F) / 2 ^ 23 % 256 = E := by omega
  simp only [hEe]
  rw [if_neg (by omega)]
  have hse : (sg * 2 ^ 31 + E * 2 ^ 23 + F) / 2 ^ 31 = sg := by omega
  have hfe : (sg * 2 ^ 31 + E * 2 ^ 23 + F) % 2 ^ 23 = F := by omega
  simp only [hse, hfe]

set_option maxRecDepth 2048 in
theorem encode32_valN (sg E F : Nat) (hs : sg ≤ 1) (hE : E ≤ 254)
    (hF : F < 2 ^ 23) :
    ∃ bs2, encode32 (valN sg E F) = some bs2 ∧
      decode32 bs2 = some (valN sg E F) := by
  by_cases hv0 : valN sg E F = 0
  · refine ⟨fpBits 0 0 0, ?_, ?_⟩
    · rw [hv0]
      unfold encode32
      rw [if_pos rfl]
    · rw [decode_fpBits 0 0 0 (by norm_num) (by norm_num) (by norm_num), hv0]
      norm_num [valN]
  · have hsg : sg = 0 ∨ sg = 1 := by omega
    rcases Nat.eq_zero_or_pos E with hE0 | hE1
    · subst hE0
      have hFpos : 0 < F := by
        by_contra hFz
        push_neg at hFz
        interval_cases F
        rcases hsg with rfl | rfl <;> simp [valN] at hv0
      have hvval : valN sg 0 F =
          if sg = 0 then (F : ℚ) / 2 ^ 149 else -((F : ℚ) / 2 ^ 149) := by
        unfold valN
        rw [if_pos rfl]
      have hmagpos : (0 : ℚ) < (F : ℚ) / 2 ^ 149 := by positivity
      have habs : |valN sg 0 F| = (F : ℚ) / 2 ^ 149 := by
        rw [hvval]
        rcases hsg with rfl | rfl
        · rw [if_pos (show (0:Nat) = 0 from rfl), abs_of_pos hmagpos]
        · rw [if_neg (show ¬((1:Nat) = 0) by omega), abs_neg,
            abs_of_pos hmagpos]
      have hsign : (if valN sg 0 F < 0 then 1 else 0) = sg := by
        rw [hvval]
        rcases hsg with rfl | rfl
        · rw [if_pos (show (0:Nat) = 0 from rfl),
            if_neg (not_lt_of_gt hmagpos)]
        · rw [if_neg (show ¬((1:Nat) = 0) by omega),
            if_pos (neg_neg_of_pos hmagpos)]
      have hapos : (0 : ℚ) < |valN sg 0 F| := by rw [habs]; exact hmagpos
      have hlt : |valN sg 0 F| < (2 : ℚ) ^ (-126 : ℤ) := by
        rw [habs, div_lt_iff₀ (by positivity : (0:ℚ) < (2:ℚ) ^ (149 : Nat))]
        have hcalc : (2 : ℚ) ^ (-126 : ℤ) * 2 ^ (149 : Nat) =
            2 ^ (23 : Nat) := by
          rw [two_pow_cast 149, two_pow_cast 23,
            ← zpow_add₀ (by norm_num : (2:ℚ) ≠ 0)]
          norm_num
        rw [hcalc]
        exact_mod_cast hF
      have hlog : flog2 |valN sg 0 F| < -126 := by
        obtain ⟨hs1, -⟩ := flog2_spec _ hapos
        have := lt_of_le_of_lt hs1 hlt
        exact (zpow_lt_zpow_iff_right₀ (by norm_num : (1:ℚ) < 2)).mp this
      have h149 : (2 : ℚ) ^ (149 : ℤ) = (2 : ℚ) ^ (149 : Nat) := by
        norm_num
      have hshift : shift2 |valN sg 0 F| 149 = (F : ℚ) := by
        rw [shift2_eq, habs, h149]
        field_simp
      have hm : (rne (shift2 |valN sg 0 F| 149)).toNat = F := by
        rw [hshift]
        rw [show ((F : Nat) : ℚ) = ((F : ℤ) : ℚ) by push_cast; ring,
          rne_intCast]
        simp
      refine ⟨fpBits sg 0 F, ?_, decode_fpBits sg 0 F hs (by norm_num) hF⟩
      unfold encode32
      rw [if_neg hv0]
      simp only []
      rw [if_neg (by omega), hm, if_neg (by omega), hsign]
    · have hE0ne : E ≠ 0 := by omega
      have hvval : valN sg E F =
          if sg = 0 then ((2 ^ 23 + F : Nat) : ℚ) * 2 ^ E / 2 ^ 150
          else -(((2 ^ 23 + F : Nat) : ℚ) * 2 ^ E / 2 ^ 150) := by
        unfold valN
        rw [if_neg hE0ne]
      have hMlb : (2 : ℚ) ^ (23 : Nat) ≤ ((2 ^ 23 + F : Nat) : ℚ) := by
        push_cast
        norm_num
      have hMub : ((2 ^ 23 + F : Nat) : ℚ) < 2 ^ (24 : Nat) := by
        have hq : (F : ℚ) < 2 ^ 23 := by exact_mod_cast hF
        push_cast
        norm_num
        linarith
      have hmagpos : (0 : ℚ) <
          ((2 ^ 23 + F : Nat) : ℚ) * 2 ^ E / 2 ^ 150 := by positivity
      have habs : |valN sg E F| =
          ((2 ^ 23 + F : Nat) : ℚ) * 2 ^ E / 2 ^ 150 := by
        rw [hvval]
        rcases hsg with rfl | rfl
        · rw [if_pos (show (0:Nat) = 0 from rfl), abs_of_pos hmagpos]
        · rw [if_neg (show ¬((1:Nat) = 0) by omega), abs_neg,
            abs_of_pos hmagpos]
      have hsign : (if valN sg E F < 0 then 1 else 0) = sg := by
        rw [hvval]
        rcases hsg with rfl | rfl
        · rw [if_pos (show (0:Nat) = 0 from rfl),
            if_neg (not_lt_of_gt hmagpos)]
        · rw [if_neg (show ¬((1:Nat) = 0) by omega),
            if_pos (neg_neg_of_pos hmagpos)]
      have hapos : (0 : ℚ) < |valN sg E F| := by rw [habs]; exact hmagpos
      have hzform : |valN sg E F| =
          ((2 ^ 23 + F : Nat) : ℚ) * 2 ^ ((E : ℤ) - 150) := by
        rw [habs, div_eq_mul_inv, mul_assoc, two_pow_cast E, two_pow_cast 150,
          ← zpow_neg, ← zpow_add₀ (by norm_num : (2:ℚ) ≠ 0)]
        norm_num [sub_eq_add_neg]
      have hlog : flog2 |valN sg E F| = (E : ℤ) - 127 := by
        apply flog2_eq_of _ _ hapos
        · rw [hzform]
          calc (2:ℚ) ^ ((E : ℤ) - 127) =
              2 ^ (23 : Nat) * 2 ^ ((E : ℤ) - 150) := by
                rw [two_pow_cast 23, ← zpow_add₀ (by norm_num : (2:ℚ) ≠ 0)]
                congr 1
                omega
            _ ≤ ((2 ^ 23 + F : Nat) : ℚ) * 2 ^ ((E : ℤ) - 150) := by
                apply mul_le_mul_of_nonneg_right hMlb (by positivity)
        · rw [hzform]
          calc ((2 ^ 23 + F : Nat) : ℚ) * 2 ^ ((E : ℤ) - 150) <
              2 ^ (24 : Nat) * 2 ^ ((E : ℤ) - 150) := by
                apply mul_lt_mul_of_pos_right hMub (by positivity)
            _ = 2 ^ ((E : ℤ) - 127 + 1) := by
                rw [two_pow_cast 24, ← zpow_add₀ (by norm_num : (2:ℚ) ≠ 0)]
                congr 1
                omega
      have hshift : shift2 |valN sg E F| (23 - ((E : ℤ) - 127)) =
          ((2 ^ 23 + F : Nat) : ℚ) := by
        rw [shift2_eq, hzform, mul_assoc,
          ← zpow_add₀ (by norm_num : (2:ℚ) ≠ 0),
          show ((E : ℤ) - 150 + (23 - ((E : ℤ) - 127)) : ℤ) = 0 by omega,
          zpow_zero, mul_one]
      have hm : (rne (shift2 |valN sg E F| (23 - ((E : ℤ) - 127)))).toNat =
          2 ^ 23 + F := by
        rw [hshift]
        rw [show (((2 ^ 23 + F : Nat)) : ℚ) = (((2 ^ 23 + F : Nat) : ℤ) : ℚ)
          by push_cast; ring, rne_intCast]
        omega
      refine ⟨fpBits sg E F, ?_, decode_fpBits sg E F hs hE hF⟩
      unfold encode32
      rw [if_neg hv0]
      simp only []
      rw [hlog, if_pos (by omega), hm, if_neg (by omega), if_neg (by omega),
        hsign, show (((E : ℤ) - 127 + 127).toNat) = E by omega,
        show (2 ^ 23 + F - 2 ^ 23 : Nat) = F by omega]

theorem real_roundtrip (v : ℚ) (h : Rep32 v) :
    (realPack (.vFloat v)).bind realUnpack = some (round2py v) := by
  obtain ⟨bs, hbs⟩ := h
  rcases bs with - | ⟨b0, - | ⟨b1, - | ⟨b2, - | ⟨b3, rest⟩⟩⟩⟩
  · exact absurd hbs (by simp [decode32])
  · exact absurd hbs (by simp [decode32])
  · exact absurd hbs (by simp [decode32])
  · exact absurd hbs (by simp [decode32])
  unfold decode32 at hbs
  simp only [] at hbs
  split_ifs at hbs with hb he
  have hv := Option.some.inj hbs
  have hw : b0 * 2 ^ 24 + b1 * 2 ^ 16 + b2 * 2 ^ 8 + b3 < 2 ^ 32 := by
    omega
  obtain ⟨bs2, he2, hd2⟩ := encode32_valN
    ((b0 * 2 ^ 24 + b1 * 2 ^ 16 + b2 * 2 ^ 8 + b3) / 2 ^ 31)
    ((b0 * 2 ^ 24 + b1 * 2 ^ 16 + b2 * 2 ^ 8 + b3) / 2 ^ 23 % 256)
    ((b0 * 2 ^ 24 + b1 * 2 ^ 16 + b2 * 2 ^ 8 + b3) % 2 ^ 23)
    (by omega) (by omega) (by omega)
  rw [← hv]
  show (encode32 _).bind realUnpack = _
  rw [he2]
  show realUnpack bs2 = _
  unfold realUnpack
  rw [if_neg (by rw [encode32_length _ bs2 he2]; omega), hd2]
  rfl

theorem bool_roundtrip (b : Bool) :
    boolUnpack (boolPack (.vBool b)) = some b := by
  cases b <;> rfl

theorem byte_roundtrip (n : Int) (h1 : 0 ≤ n) (h2 : n < 256) :
    (bytePack (.vInt n)).bind byteUnpack = some n.toNat := by
  show some ((n % 256).toNat) = some n.toNat
  congr 1
  omega

theorem word_roundtrip (n : Int) (h1 : 0 ≤ n) (h2 : n < 65536) :
    (wordPack (.vInt n)).bind wordUnpack = some n.toNat := by
  show (if (0 ≤ n ∧ n < 65536)
    then some (pack16 n.toNat) else none).bind wordUnpack = some n.toNat
  rw [if_pos ⟨h1, h2⟩]
  show some (n.toNat / 256 % 256 * 256 + n.toNat % 256) = some n.toNat
  congr 1
  omega

theorem intUnpack_pack16 (m : Nat) :
    intUnpack (pack16 m) =
    some (if m / 256 % 256 * 256 + m % 256 < 32768
      then ((m / 256 % 256 * 256 + m % 256 : Nat) : Int)
      else ((m / 256 % 256 * 256 + m % 256 : Nat) : Int) - 65536) := rfl

theorem dintUnpack_pack32 (m : Nat) :
    dintUnpack (pack32 m) =
    some (if m / 2 ^ 24 % 256 * 2 ^ 24 + m / 2 ^ 16 % 256 * 2 ^ 16 +
        m / 2 ^ 8 % 256 * 2 ^ 8 + m % 256 < 2 ^ 31
      then ((m / 2 ^ 24 % 256 * 2 ^ 24 + m / 2 ^ 16 % 256 * 2 ^ 16 +
        m / 2 ^ 8 % 256 * 2 ^ 8 + m % 256 : Nat) : Int)
      else ((m / 2 ^ 24 % 256 * 2 ^ 24 + m / 2 ^ 16 % 256 * 2 ^ 16 +
        m / 2 ^ 8 % 256 * 2 ^ 8 + m % 256 : Nat) : Int) - 2 ^ 32) := by
  simp only [dintUnpack, pack32, unpack32, Option.map_some']

theorem int_roundtrip (n : Int) (h1 : -32768 ≤ n) (h2 : n < 32768) :
    (intPack (.vInt n)).bind intUnpack = some n := by
  show (if (-32768 ≤ n ∧ n < 32768)
    then some (pack16 (n % 65536).toNat) else none).bind intUnpack = some n
  rw [if_pos ⟨h1, h2⟩]
  show intUnpack (pack16 (n % 65536).toNat) = some n
  rw [intUnpack_pack16]
  split_ifs with hlt <;> (congr 1; omega)

theorem dword_roundtrip (n : Int) (h1 : 0 ≤ n) (h2 : n < 2 ^ 32) :
    (dwordPack (.vInt n)).bind dwordUnpack = some n.toNat := by
  show (if (0 ≤ n ∧ n < 2 ^ 32)
    then some (pack32 n.toNat) else none).bind dwordUnpack = some n.toNat
  rw [if_pos ⟨h1, h2⟩]
  show some (n.toNat / 2 ^ 24 % 256 * 2 ^ 24 +
    n.toNat / 2 ^ 16 % 256 * 2 ^ 16 +
    n.toNat / 2 ^ 8 % 256 * 2 ^ 8 + n.toNat % 256) = some n.toNat
  congr 1
  omega

theorem dint_roundtrip (n : Int) (h1 : -(2 ^ 31) ≤ n) (h2 : n < 2 ^ 31) :
    (dintPack (.vInt n)).bind dintUnpack = some n := by
  have hrw : dintPack (.vInt n) = ((some n).bind fun m =>
      if -(2 ^ 31) ≤ m ∧ m < 2 ^ 31 then some (pack32 (m % 2 ^ 32).toNat)
      else none) := rfl
  have hrw2 : ((some n).bind fun m =>
      if -(2 ^ 31) ≤ m ∧ m < 2 ^ 31 then some (pack32 (m % 2 ^ 32).toNat)
      else none) =
      (if -(2 ^ 31) ≤ n ∧ n < 2 ^ 31 then some (pack32 (n % 2 ^ 32).toNat)
      else none) := rfl
  rw [hrw, hrw2, if_pos ⟨h1, h2⟩, Option.some_bind, dintUnpack_pack32]
  split_ifs with hlt <;> (congr 1; omega)

theorem string_roundtrip (n : Nat) (s : List Char) (hn : n ≤ 255)
    (hascii : ∀ c ∈ s, c.toNat < 128) :
    (stringPack n (.vStr s)).bind stringUnpack = some (s.take n) := by
  have hall : (s.take n).all (fun c => c.toNat < 128) = true := by
    rw [List.all_eq_true]
    intro c hc
    exact decide_eq_true (hascii c (List.take_subset n s hc))
  show (if (n ≤ 255 ∧ (s.take n).all (fun c => c.toNat < 128))
    then some (n :: (s.take n).length :: (s.take n).map Char.toNat)
    else none).bind stringUnpack = some (s.take n)
  rw [if_pos ⟨hn, by rw [hall]⟩]
  have htl : ((s.take n).map Char.toNat).take (s.take n).length =
      (s.take n).map Char.toNat := by
    rw [← List.length_map (s.take n) Char.toNat, List.take_length]
  have hpay : ((s.take n).map Char.toNat).all (fun b => b < 128) = true := by
    rw [List.all_eq_true]
    intro b hb
    obtain ⟨c, hc, rfl⟩ := List.mem_map.mp hb
    exact decide_eq_true (hascii c (List.take_subset n s hc))
  show (if (((s.take n).map Char.toNat).take (s.take n).length).all
      (fun b => b < 128)
    then some ((((s.take n).map Char.toNat).take
      (s.take n).length).map Char.ofNat)
    else none) = some (s.take n)
  rw [htl, if_pos (by rw [hpay])]
  congr 1
  rw [List.map_map,
    show Char.ofNat ∘ Char.toNat = id by
      funext c
      simp [Char.ofNat_toNat]]
  exact List.map_id _

theorem char_valid_nat (c : Char) :
    c.toNat < 55296 ∨ (57343 < c.toNat ∧ c.toNat < 1114112) := by
  have h : c.val.toNat < 55296 ∨ (57343 < c.val.toNat ∧
      c.val.toNat < 1114112) := c.valid
  exact h

theorem utf16_pair_roundtrip (us : List Nat) (h : ∀ u ∈ us, u < 65536) :
    utf16beDecode.utf16beDecodeUnitsAux ((us.map pack16).flatten) =
      some us := by
  induction us with
  | nil => rfl
  | cons u rest ih =>
      have hu : u < 65536 := h u (List.mem_cons_self u rest)
      have hrest := ih (fun x hx => h x (List.mem_cons_of_mem u hx))
      simp only [List.map_cons, List.flatten_cons, pack16]
      show (utf16beDecode.utf16beDecodeUnitsAux
        ((rest.map pack16).flatten)).map
          (fun us2 => (u / 256 % 256 * 256 + u % 256) :: us2) = _
      rw [hrest]
      simp only [Option.map_some']
      congr 2
      omega

theorem utf16DecodeUnits_bmp (u : Nat) (rest : List Nat)
    (h : u < 55296 ∨ (57344 ≤ u ∧ u < 65536)) :
    utf16DecodeUnits (u :: rest) =
      (utf16DecodeUnits rest).map (fun cs => Char.ofNat u :: cs) := by
  cases rest with
  | nil =>
      show (if u < 55296 ∨ (57344 ≤ u ∧ u < 65536) then some [Char.ofNat u]
        else none) = _
      rw [if_pos h]
      rfl
  | cons lo rest2 =>
      show (if u < 55296 ∨ (57344 ≤ u ∧ u < 65536)
        then (utf16DecodeUnits (lo :: rest2)).map fun cs => Char.ofNat u :: cs
        else _) = _
      rw [if_pos h]

theorem utf16DecodeUnits_pair (u lo : Nat) (rest : List Nat)
    (h1 : ¬(u < 55296 ∨ (57344 ≤ u ∧ u < 65536))) (h2 : u < 56320)
    (h3 : 56320 ≤ lo ∧ lo < 57344) :
    utf16DecodeUnits (u :: lo :: rest) =
      (utf16DecodeUnits rest).map
        (fun cs => Char.ofNat (65536 + (u - 55296) * 1024 + (lo - 56320)) ::
          cs) := by
  show (if u < 55296 ∨ (57344 ≤ u ∧ u < 65536)
    then (utf16DecodeUnits (lo :: rest)).map fun cs => Char.ofNat u :: cs
    else if u < 56320 then
      if 56320 ≤ lo ∧ lo < 57344 then
        (utf16DecodeUnits rest).map fun cs =>
          Char.ofNat (65536 + (u - 55296) * 1024 + (lo - 56320)) :: cs
      else none
    else none) = _
  rw [if_neg h1, if_pos h2, if_pos h3]

theorem utf16_units_roundtrip (s : List Char) :
    utf16DecodeUnits ((s.map utf16Units).flatten) = some s := by
  induction s with
  | nil => rfl
  | cons c cs ih =>
      have hvc := char_valid_nat c
      by_cases hbmp : c.toNat < 65536
      · simp only [List.map_cons, List.flatten_cons, utf16Units, if_pos hbmp,
          List.cons_append, List.nil_append]
        rw [utf16DecodeUnits_bmp c.toNat _ (by omega), ih]
        simp [Char.ofNat_toNat]
      · push_neg at hbmp
        have hlt : c.toNat < 1114112 := by omega
        simp only [List.map_cons, List.flatten_cons, utf16Units,
          if_neg (by omega : ¬c.toNat < 65536), List.cons_append,
          List.nil_append]
        rw [utf16DecodeUnits_pair _ _ _ (by omega) (by omega)
          ⟨by omega, by omega⟩, ih]
        simp only [Option.map_some']
        rw [show 65536 + (55296 + (c.toNat - 65536) / 1024 - 55296) * 1024 +
            (56320 + (c.toNat - 65536) % 1024 - 56320) = c.toNat by omega,
          Char.ofNat_toNat]

theorem utf16Units_lt (c : Char) : ∀ u ∈ utf16Units c, u < 65536 := by
  intro u hu
  have hvc := char_valid_nat c
  unfold utf16Units at hu
  split_ifs at hu with hbmp
  · rw [List.mem_singleton] at hu
    omega
  · push_neg at hbmp
    have hlt : c.toNat < 1114112 := by omega
    simp only [List.mem_cons, List.mem_singleton, List.not_mem_nil,
      or_false] at hu
    rcases hu with h | h
    · rw [h]
      omega
    · rw [h]
      omega

theorem utf16be_roundtrip (s : List Char) :
    utf16beDecode (utf16beEncode s) = some s := by
  have hgen : ∀ l : List Nat,
      utf16beDecode l =
        (utf16beDecode.utf16beDecodeUnitsAux l).bind utf16DecodeUnits := by
    intro l
    rcases l with - | ⟨a, - | ⟨b, t⟩⟩ <;> rfl
  rw [hgen]
  unfold utf16beEncode
  rw [utf16_pair_roundtrip ((s.map utf16Units).flatten)
    (by intro u hu
        obtain ⟨units, hmem, hu2⟩ := List.mem_flatten.mp hu
        obtain ⟨c, -, rfl⟩ := List.mem_map.mp hmem
        exact utf16Units_lt c u hu2)]
  simp only [Option.some_bind]
  exact utf16_units_roundtrip s

theorem flatten_pack16_length (U : List Nat) :
    ((U.map pack16).flatten).length = 2 * U.length := by
  induction U with
  | nil => rfl
  | cons u rest ih =>
      simp only [List.map_cons, List.flatten_cons, List.length_append, ih,
        pack16, List.length_cons, List.length_nil]
      omega

theorem unitsLen_le (s : List Char) :
    ((s.map utf16Units).flatten).length ≤ 2 * s.length := by
  induction s with
  | nil => simp
  | cons c cs ih =>
      have hc : (utf16Units c).length ≤ 2 := by
        unfold utf16Units
        split_ifs <;> simp
      simp only [List.map_cons, List.flatten_cons, List.length_append,
        List.length_cons]
      omega

theorem wstring_roundtrip (n : Nat) (s : List Char) (hn : n ≤ 16382) :
    (wstringPack n (.vStr s)).bind wstringUnpack = some (s.take n) := by
  have henc : (utf16beEncode (s.take n)).length =
      2 * (((s.take n).map utf16Units).flatten).length :=
    flatten_pack16_length _
  have hUlen : (((s.take n).map utf16Units).flatten).length ≤ 2 * n := by
    have h1 := unitsLen_le (s.take n)
    have h2 := List.length_take_le n s
    omega
  show (if (n < 65536 ∧ (utf16beEncode (s.take n)).length / 2 < 65536)
    then some (pack16 n ++ pack16 ((utf16beEncode (s.take n)).length / 2) ++
      utf16beEncode (s.take n))
    else none).bind wstringUnpack = some (s.take n)
  rw [if_pos ⟨by omega, by omega⟩]
  show wstringUnpack (pack16 n ++ pack16 ((utf16beEncode (s.take n)).length / 2)
    ++ utf16beEncode (s.take n)) = some (s.take n)
  have hdiv : (utf16beEncode (s.take n)).length / 2 =
      (((s.take n).map utf16Units).flatten).length := by omega
  rw [hdiv]
  show utf16beDecode ((utf16beEncode (s.take n)).take
    (((((s.take n).map utf16Units).flatten).length / 256 % 256 * 256 +
      (((s.take n).map utf16Units).flatten).length % 256) * 2)) =
    some (s.take n)
  rw [show ((((s.take n).map utf16Units).flatten).length / 256 % 256 * 256 +
      (((s.take n).map utf16Units).flatten).length % 256) * 2 =
    (utf16beEncode (s.take n)).length by omega, List.take_length]
  exact utf16be_roundtrip (s.take n)


/-- Evaluation of dtUnpack on an explicit eight-byte list. -/
theorem dtUnpack_cons (d0 d1 d2 d3 d4 d5 d6 d7 : Nat) :
    dtUnpack [d0, d1, d2, d3, d4, d5, d6, d7] =
      some (fmtDateTime
        ⟨(if fromBcd d0 < 90 then 2000 + fromBcd d0 else 1900 + fromBcd d0),
          fromBcd d1, fromBcd d2, fromBcd d3, fromBcd d4, fromBcd d5, 0⟩) :=
  rfl

/-- BCD encoding decodes back to the value. -/
theorem fromBcd_toBcd (v : Nat) : fromBcd (toBcd v) = v := by
  unfold toBcd fromBcd
  omega

/-- DT round-trip: for a valid datetime in the two-digit-year window
1990-2089 whose milliseconds byte does not overflow (microsecond below
100000), unpack of pack is the canonical display string without
sub-seconds. -/
theorem dt_roundtrip (d : PyDateTime) (hv : dtValid d = true)
    (hy1 : 1990 ≤ d.year) (hy2 : d.year ≤ 2089)
    (hus : d.microsecond < 100000) :
    (dtPack (.vDT d)).bind dtUnpack = some (fmtDateTime d) := by
  simp only [dtValid, decide_eq_true_eq] at hv
  obtain ⟨-, -, hmo1, hmo2, hd1, hd2, hh, hmi, hs, hu⟩ := hv
  have hdm : daysInMonth d.year d.month ≤ 31 := by
    unfold daysInMonth
    split_ifs <;> omega
  show (dtPackCore d).bind dtUnpack = some (fmtDateTime d)
  unfold dtPackCore
  simp only []
  split
  · rw [Option.some_bind, dtUnpack_cons,
      fromBcd_toBcd (d.year % 100), fromBcd_toBcd d.month,
      fromBcd_toBcd d.day, fromBcd_toBcd d.hour,
      fromBcd_toBcd d.minute, fromBcd_toBcd d.second,
      show (if d.year % 100 < 90 then 2000 + d.year % 100
        else 1900 + d.year % 100) = d.year by split_ifs <;> omega]
    rfl
  · next hc =>
      exfalso
      apply hc
      simp only [List.all_cons, List.all_nil, Bool.and_eq_true,
        decide_eq_true_eq, Bool.and_true]
      unfold toBcd
      have hdow : isoWeekday d.year d.month d.day % 7 + 1 < 8 := by omega
      omega

/-- Big-endian four-byte decomposition reassembles below 2^32. -/
theorem unpack32_reconstruct (a : Nat) (h : a < 2 ^ 32) :
    a / 2 ^ 24 % 256 * 2 ^ 24 + a / 2 ^ 16 % 256 * 2 ^ 16 +
    a / 2 ^ 8 % 256 * 2 ^ 8 + a % 256 = a := by
  omega


/-- Evaluation of dtlUnpack on an explicit twelve-byte list. -/
theorem dtlUnpack_cons (y0 y1 mo dd wd h mi se n0 n1 n2 n3 : Nat) :
    dtlUnpack [y0, y1, mo, dd, wd, h, mi, se, n0, n1, n2, n3] =
      (if dtValid ⟨y0 * 256 + y1, mo, dd, h, mi, se,
          (n0 * 2 ^ 24 + n1 * 2 ^ 16 + n2 * 2 ^ 8 + n3) / 1000⟩ = true
       then some (dtlDisplay ⟨y0 * 256 + y1, mo, dd, h, mi, se,
          (n0 * 2 ^ 24 + n1 * 2 ^ 16 + n2 * 2 ^ 8 + n3) / 1000⟩ wd)
       else none) :=
  rfl

/-- DTL round-trip: for a valid datetime and a weekday byte in range,
unpack of pack is the canonical display string with six microsecond
digits and the weekday. -/
theorem dtl_roundtrip (d : PyDateTime) (w : Int) (hv : dtValid d = true)
    (hw1 : 0 ≤ w) (hw2 : w < 256) :
    (dtlPack (.vDTL d w)).bind dtlUnpack = some (dtlDisplay d w.toNat) := by
  have hv2 := hv
  simp only [dtValid, decide_eq_true_eq] at hv2
  obtain ⟨hy1, hy2, hmo1, hmo2, hd1, hd2, hh, hmi, hs, hu⟩ := hv2
  have hdm : daysInMonth d.year d.month ≤ 31 := by
    unfold daysInMonth
    split_ifs <;> omega
  show (dtlPackCore d w).bind dtlUnpack = some (dtlDisplay d w.toNat)
  unfold dtlPackCore
  split
  · rw [Option.some_bind]
    simp only [pack16, pack32, List.cons_append, List.nil_append]
    rw [dtlUnpack_cons,
      show d.year / 256 % 256 * 256 + d.year % 256 = d.year by omega,
      unpack32_reconstruct (d.microsecond * 1000) (by omega),
      show d.microsecond * 1000 / 1000 = d.microsecond by omega,
      if_pos (show dtValid ⟨d.year, d.month, d.day, d.hour, d.minute,
        d.second, d.microsecond⟩ = true from hv)]
  · next hc =>
      exact absurd ⟨by omega, by omega, by omega, hw1, hw2, by omega,
        by omega, by omega, by omega⟩ hc


/-- C1: for every supported type and every value in its domain,
unpacking the packed bytes yields the canonical form of the value: the
identity on the integer family (BOOL as a truth value, BYTE, WORD,
INT, DWORD, DINT over their struct ranges), the REAL value rounded the
way a float32 read back through Python round(x, 2) is, STRING[n] and
WSTRING[n] values truncated to at most n characters, and DT/DTL values
rendered as their canonical display strings (DT without sub-seconds,
DTL with six microsecond digits and the weekday); DT additionally
needs its two-digit year read back through the 1990-2089 window and a
milliseconds byte that does not overflow (microsecond below 100000),
and DTL a weekday byte in range. -/
theorem pack_unpack_roundtrip :
    (∀ b : Bool, boolUnpack (boolPack (.vBool b)) = some b) ∧
    (∀ n : Int, 0 ≤ n → n < 256 →
      (bytePack (.vInt n)).bind byteUnpack = some n.toNat) ∧
    (∀ n : Int, 0 ≤ n → n < 65536 →
      (wordPack (.vInt n)).bind wordUnpack = some n.toNat) ∧
    (∀ n : Int, -32768 ≤ n → n < 32768 →
      (intPack (.vInt n)).bind intUnpack = some n) ∧
    (∀ n : Int, 0 ≤ n → n < 2 ^ 32 →
      (dwordPack (.vInt n)).bind dwordUnpack = some n.toNat) ∧
    (∀ n : Int, -(2 ^ 31) ≤ n → n < 2 ^ 31 →
      (dintPack (.vInt n)).bind dintUnpack = some n) ∧
    (∀ v : ℚ, Rep32 v →
      (realPack (.vFloat v)).bind realUnpack = some (round2py v)) ∧
    (∀ n : Nat, ∀ s : List Char, n ≤ 255 → (∀ c ∈ s, c.toNat < 128) →
      (stringPack n (.vStr s)).bind stringUnpack = some (s.take n)) ∧
    (∀ n : Nat, ∀ s : List Char, n ≤ 16382 →
      (wstringPack n (.vStr s)).bind wstringUnpack = some (s.take n)) ∧
    (∀ d : PyDateTime, dtValid d = true → 1990 ≤ d.year → d.year ≤ 2089 →
      d.microsecond < 100000 →
      (dtPack (.vDT d)).bind dtUnpack = some (fmtDateTime d)) ∧
    (∀ d : PyDateTime, ∀ w : Int, dtValid d = true → 0 ≤ w → w < 256 →
      (dtlPack (.vDTL d w)).bind dtlUnpack = some (dtlDisplay d w.toNat)) :=
  ⟨bool_roundtrip,
   fun n h1 h2 => byte_roundtrip n h1 h2,
   fun n h1 h2 => word_roundtrip n h1 h2,
   fun n h1 h2 => int_roundtrip n h1 h2,
   fun n h1 h2 => dword_roundtrip n h1 h2,
   fun n h1 h2 => dint_roundtrip n h1 h2,
   fun v h => real_roundtrip v h,
   fun n s h1 h2 => string_roundtrip n s h1 h2,
   fun n s h1 => wstring_roundtrip n s h1,
   fun d h1 h2 h3 h4 => dt_roundtrip d h1 h2 h3 h4,
   fun d w h1 h2 h3 => dtl_roundtrip d w h1 h2 h3⟩

/-- Closed instance of the C1 round-trip theorem at concrete inputs of
every type. -/
theorem pack_unpack_roundtrip_witness :
    boolUnpack (boolPack (.vBool true)) = some true ∧
    (bytePack (.vInt 200)).bind byteUnpack = some ((200 : Int).toNat) ∧
    (wordPack (.vInt 40000)).bind wordUnpack = some ((40000 : Int).toNat) ∧
    (intPack (.vInt (-12345))).bind intUnpack = some (-12345) ∧
    (dwordPack (.vInt 305419896)).bind dwordUnpack =
      some ((305419896 : Int).toNat) ∧
    (dintPack (.vInt (-2000000000))).bind dintUnpack =
      some (-2000000000) ∧
    (realPack (.vFloat (1/2))).bind realUnpack =
      some (round2py (1/2)) ∧
    (stringPack 8 (.vStr ['H', 'I'])).bind stringUnpack =
      some (['H', 'I'].take 8) ∧
    (wstringPack 5 (.vStr ['A'])).bind wstringUnpack =
      some (['A'].take 5) ∧
    (dtPack (.vDT ⟨2024, 3, 15, 10, 30, 45, 0⟩)).bind dtUnpack =
      some (fmtDateTime ⟨2024, 3, 15, 10, 30, 45, 0⟩) ∧
    (dtlPack (.vDTL ⟨2024, 3, 15, 10, 30, 45, 0⟩ 5)).bind dtlUnpack =
      some (dtlDisplay ⟨2024, 3, 15, 10, 30, 45, 0⟩ ((5 : Int).toNat)) :=
  ⟨pack_unpack_roundtrip.1 true,
   pack_unpack_roundtrip.2.1 200 (by norm_num) (by norm_num),
   pack_unpack_roundtrip.2.2.1 40000 (by norm_num) (by norm_num),
   pack_unpack_roundtrip.2.2.2.1 (-12345) (by norm_num) (by norm_num),
   pack_unpack_roundtrip.2.2.2.2.1 305419896 (by norm_num) (by norm_num),
   pack_unpack_roundtrip.2.2.2.2.2.1 (-2000000000) (by norm_num)
     (by norm_num),
   pack_unpack_roundtrip.2.2.2.2.2.2.1 (1/2)
     ⟨[63, 0, 0, 0], by norm_num [decode32, valN]⟩,
   pack_unpack_roundtrip.2.2.2.2.2.2.2.1 8 ['H', 'I'] (by norm_num)
     (by decide),
   pack_unpack_roundtrip.2.2.2.2.2.2.2.2.1 5 ['A'] (by norm_num),
   pack_unpack_roundtrip.2.2.2.2.2.2.2.2.2.1 ⟨2024, 3, 15, 10, 30, 45, 0⟩
     (by decide) (by norm_num) (by norm_num) (by norm_num),
   pack_unpack_roundtrip.2.2.2.2.2.2.2.2.2.2 ⟨2024, 3, 15, 10, 30, 45, 0⟩ 5
     (by decide) (by norm_num) (by norm_num)⟩


/-! ## Claim C7: loop execution counts

The interpreter is related to the structured denotation: running the
flattening of a structured script executes each loop body exactly its
loop count times, producing the denoted trace. -/

/-- Helper extraction of the element and tail from a drop equation. -/
theorem drop_cons_get {α : Type} (l : List α) (p : Nat) (x : α)
    (rest : List α) (h : l.drop p = x :: rest) :
    ∃ hp : p < l.length, l.get ⟨p, hp⟩ = x ∧ l.drop (p + 1) = rest := by
  have hp : p < l.length := by
    by_contra hc
    rw [List.drop_eq_nil_of_le (by omega)] at h
    exact List.noConfusion h
  refine ⟨hp, ?_, ?_⟩
  · have h2 := List.getElem_cons_drop l p hp
    rw [h] at h2
    exact (((List.cons.injEq _ _ _ _).mp h2.symm).1).symm
  · have h2 := List.getElem_cons_drop l p hp
    rw [h] at h2
    exact (((List.cons.injEq _ _ _ _).mp h2.symm).2).symm

theorem exec_mono : ∀ fuel,
    (∀ ok commands idx tr r, execCmds ok commands fuel idx tr = some r →
      execCmds ok commands (fuel + 1) idx tr = some r) ∧
    (∀ ok commands n ls tr r, execIters ok commands fuel n ls tr = some r →
      execIters ok commands (fuel + 1) n ls tr = some r) := by
  intro fuel
  induction fuel with
  | zero =>
      constructor
      · intro ok c idx tr r h
        exact absurd h (by simp [execCmds])
      · intro ok c n ls tr r h
        exact absurd h (by simp [execIters])
  | succ f ih =>
      constructor
      · intro ok c idx tr r h
        rw [execCmds] at h ⊢
        by_cases hlt : idx < c.length
        · rw [dif_pos hlt] at h ⊢
          rcases hc : c.get ⟨idx, hlt⟩ with k | _ | n | _
          all_goals rw [hc] at h
          · -- basic k
            have h2 : (if ok k = true then
                execCmds ok c f (idx + 1) (tr ++ [k])
                else some (-1, tr)) = some r := h
            show (if ok k = true then
              execCmds ok c (f + 1) (idx + 1) (tr ++ [k])
              else some (-1, tr)) = some r
            by_cases hok : ok k = true
            · rw [if_pos hok] at h2 ⊢
              exact ih.1 _ _ _ _ _ h2
            · rw [if_neg hok] at h2 ⊢
              exact h2
          · -- empty
            exact ih.1 _ _ _ _ _ h
          · -- loop n
            have h2 : (match execIters ok c f n (idx + 1) tr with
                | none => none
                | some (false, tr2) => some (-1, tr2)
                | some (true, tr2) =>
                    execCmds ok c f (findEnd c (idx + 1) 1) tr2) = some r := h
            show (match execIters ok c (f + 1) n (idx + 1) tr with
              | none => none
              | some (false, tr2) => some (-1, tr2)
              | some (true, tr2) =>
                  execCmds ok c (f + 1) (findEnd c (idx + 1) 1) tr2) = some r
            rcases hit : execIters ok c f n (idx + 1) tr with _ | ⟨b, tr2⟩
            · rw [hit] at h2
              exact absurd h2 (by simp)
            · rw [hit] at h2
              rw [ih.2 _ _ _ _ _ _ hit]
              cases b
              · exact h2
              · have h3 : execCmds ok c f (findEnd c (idx + 1) 1) tr2 =
                    some r := h2
                exact ih.1 _ _ _ _ _ h3
          · -- endLoop
            exact h
        · rw [dif_neg hlt] at h ⊢
          exact h
      · intro ok c n ls tr r h
        cases n with
        | zero => exact h
        | succ m =>
            have h2 : (match execCmds ok c f ls tr with
                | none => none
                | some (rr, tr2) =>
                    if rr = -1 then some (false, tr2)
                    else execIters ok c f m ls tr2) = some r := h
            show (match execCmds ok c (f + 1) ls tr with
              | none => none
              | some (rr, tr2) =>
                  if rr = -1 then some (false, tr2)
                  else execIters ok c (f + 1) m ls tr2) = some r
            rcases hs : execCmds ok c f ls tr with _ | ⟨rr, tr2⟩
            · rw [hs] at h2
              exact absurd h2 (by simp)
            · rw [hs] at h2
              rw [ih.1 _ _ _ _ _ hs]
              have h3 : (if rr = -1 then some (false, tr2)
                  else execIters ok c f m ls tr2) = some r := h2
              show (if rr = -1 then some (false, tr2)
                else execIters ok c (f + 1) m ls tr2) = some r
              by_cases hrr : rr = -1
              · rw [if_pos hrr] at h3 ⊢
                exact h3
              · rw [if_neg hrr] at h3 ⊢
                exact ih.2 _ _ _ _ _ _ h3

theorem execCmds_mono_le (ok : Nat → Bool) (c : List Cmd) (f g : Nat)
    (idx : Nat) (tr : List Nat) (r : Int × List Nat) (hle : f ≤ g)
    (h : execCmds ok c f idx tr = some r) :
    execCmds ok c g idx tr = some r := by
  induction g with
  | zero =>
      have : f = 0 := by omega
      exact this ▸ h
  | succ gg ihg =>
      rcases Nat.lt_or_ge f (gg + 1) with hf | hf
      · exact (exec_mono gg).1 _ _ _ _ _ (ihg (by omega))
      · have : f = gg + 1 := by omega
        exact this ▸ h

theorem execIters_mono_le (ok : Nat → Bool) (c : List Cmd) (f g : Nat)
    (n ls : Nat) (tr : List Nat) (r : Bool × List Nat) (hle : f ≤ g)
    (h : execIters ok c f n ls tr = some r) :
    execIters ok c g n ls tr = some r := by
  induction g with
  | zero =>
      have : f = 0 := by omega
      exact this ▸ h
  | succ gg ihg =>
      rcases Nat.lt_or_ge f (gg + 1) with hf | hf
      · exact (exec_mono gg).2 _ _ _ _ _ _ (ihg (by omega))
      · have : f = gg + 1 := by omega
        exact this ▸ h

theorem drop_block {α : Type} (l : List α) (p : Nat) (blk rest : List α)
    (h : l.drop p = blk ++ rest) : l.drop (p + blk.length) = rest := by
  have h2 : (l.drop p).drop blk.length = rest := by
    rw [h, List.drop_left]
  rw [List.drop_drop] at h2
  exact h2

mutual

theorem findEnd_flat1 (c : SCmd) : ∀ (commands : List Cmd) (q : Nat)
    (rest : List Cmd) (depth : Nat), 0 < depth →
    commands.drop q = flatten1 c ++ rest →
    findEnd commands q depth =
      findEnd commands (q + (flatten1 c).length) depth := by
  intro commands q rest depth hd hdrop
  match c with
  | .basic k =>
      obtain ⟨hq, hget, hdrop2⟩ :=
        drop_cons_get _ _ _ _ (by simpa [flatten1] using hdrop)
      rw [findEnd, dif_pos ⟨hq, hd⟩, hget]
      rfl
  | .empty =>
      obtain ⟨hq, hget, hdrop2⟩ :=
        drop_cons_get _ _ _ _ (by simpa [flatten1] using hdrop)
      rw [findEnd, dif_pos ⟨hq, hd⟩, hget]
      rfl
  | .loop n body =>
      have hdrop' : commands.drop q =
          Cmd.loop n :: (flattenList body ++ ([Cmd.endLoop] ++ rest)) := by
        simpa [flatten1, List.append_assoc] using hdrop
      obtain ⟨hq, hget, hdrop2⟩ := drop_cons_get _ _ _ _ hdrop'
      have hdrop3 : commands.drop (q + 1 + (flattenList body).length) =
          [Cmd.endLoop] ++ rest := drop_block _ _ _ _ hdrop2
      obtain ⟨hq2, hget2, hdrop4⟩ :=
        drop_cons_get _ _ _ _ (by simpa using hdrop3)
      rw [findEnd, dif_pos ⟨hq, hd⟩, hget]
      show findEnd commands (q + 1) (depth + 1) = _
      rw [findEnd_flatList body commands (q + 1) ([Cmd.endLoop] ++ rest)
        (depth + 1) (by omega) hdrop2]
      rw [findEnd, dif_pos ⟨hq2, by omega⟩, hget2]
      show findEnd commands (q + 1 + (flattenList body).length + 1)
        (depth + 1 - 1) = _
      rw [show depth + 1 - 1 = depth from rfl,
        show q + (flatten1 (SCmd.loop n body)).length =
          q + 1 + (flattenList body).length + 1 by
            simp [flatten1]
            omega]
termination_by sizeOf c

theorem findEnd_flatList (s : List SCmd) : ∀ (commands : List Cmd) (q : Nat)
    (rest : List Cmd) (depth : Nat), 0 < depth →
    commands.drop q = flattenList s ++ rest →
    findEnd commands q depth =
      findEnd commands (q + (flattenList s).length) depth := by
  intro commands q rest depth hd hdrop
  match s with
  | [] => rfl
  | c :: cs =>
      have hdrop' : commands.drop q =
          flatten1 c ++ (flattenList cs ++ rest) := by
        simpa [flattenList, List.append_assoc] using hdrop
      have hdrop2 : commands.drop (q + (flatten1 c).length) =
          flattenList cs ++ rest := drop_block _ _ _ _ hdrop'
      rw [findEnd_flat1 c commands q (flattenList cs ++ rest) depth hd hdrop',
        findEnd_flatList cs commands (q + (flatten1 c).length) rest depth hd
          hdrop2,
        show q + (flatten1 c).length + (flattenList cs).length =
          q + (flattenList (c :: cs)).length by
            simp [flattenList]
            omega]
termination_by sizeOf s

end

mutual

theorem reach_flat1 (c : SCmd) : ∀ (commands : List Cmd) (p : Nat)
    (rest : List Cmd) (tr : List Nat),
    commands.drop p = flatten1 c ++ rest →
    Reaches (fun _ => true) commands p tr
      (p + (flatten1 c).length) (tr ++ denote1 c) := by
  intro commands p rest tr hdrop r fuel hcont
  match c with
  | .basic k =>
      obtain ⟨hp, hget, hdrop2⟩ :=
        drop_cons_get _ _ _ _ (by simpa [flatten1] using hdrop)
      refine ⟨fuel + 1, ?_⟩
      rw [execCmds, dif_pos hp, hget]
      show (if (fun _ => true) k = true then
        execCmds (fun _ => true) commands fuel (p + 1) (tr ++ [k])
        else some (-1, tr)) = some r
      rw [if_pos rfl]
      exact hcont
  | .empty =>
      obtain ⟨hp, hget, hdrop2⟩ :=
        drop_cons_get _ _ _ _ (by simpa [flatten1] using hdrop)
      refine ⟨fuel + 1, ?_⟩
      rw [execCmds, dif_pos hp, hget]
      show execCmds (fun _ => true) commands fuel (p + 1) tr = some r
      simp only [denote1, List.append_nil] at hcont
      exact hcont
  | .loop n body =>
      have hdrop' : commands.drop p =
          Cmd.loop n :: (flattenList body ++ ([Cmd.endLoop] ++ rest)) := by
        simpa [flatten1, List.append_assoc] using hdrop
      obtain ⟨hp, hget, hdrop2⟩ := drop_cons_get _ _ _ _ hdrop'
      have hdrop3 : commands.drop (p + 1 + (flattenList body).length) =
          [Cmd.endLoop] ++ rest := drop_block _ _ _ _ hdrop2
      obtain ⟨hp2, hget2, hdrop4⟩ :=
        drop_cons_get _ _ _ _ (by simpa using hdrop3)
      have hfe : findEnd commands (p + 1) 1 =
          p + 1 + (flattenList body).length + 1 := by
        rw [findEnd_flatList body commands (p + 1) ([Cmd.endLoop] ++ rest) 1
          (by omega) hdrop2]
        rw [findEnd, dif_pos ⟨hp2, by omega⟩, hget2]
        show findEnd commands (p + 1 + (flattenList body).length + 1)
          (1 - 1) = _
        rw [findEnd, dif_neg (by omega)]
      have hiter : ∀ (m : Nat) (tr0 : List Nat), ∃ F,
          execIters (fun _ => true) commands F m (p + 1) tr0 =
            some (true,
              tr0 ++ (List.replicate m (denoteList body)).flatten) := by
        intro m
        induction m with
        | zero =>
            intro tr0
            exact ⟨1, by simp [execIters]⟩
        | succ mm ihm =>
            intro tr0
            have hcont1 : execCmds (fun _ => true) commands 1
                (p + 1 + (flattenList body).length)
                (tr0 ++ denoteList body) =
                some (((p + 1 + (flattenList body).length : Nat) : Int),
                  tr0 ++ denoteList body) := by
              rw [execCmds, dif_pos hp2, hget2]
            obtain ⟨F1, hF1⟩ := reach_flat1List body commands (p + 1)
              ([Cmd.endLoop] ++ rest) tr0 hdrop2 _ 1 hcont1
            obtain ⟨F2, hF2⟩ := ihm (tr0 ++ denoteList body)
            refine ⟨max F1 F2 + 1, ?_⟩
            show (match execCmds (fun _ => true) commands (max F1 F2)
                (p + 1) tr0 with
              | none => none
              | some (rr, tr2) =>
                  if rr = -1 then some (false, tr2)
                  else execIters (fun _ => true) commands (max F1 F2) mm
                    (p + 1) tr2) = _
            rw [execCmds_mono_le _ _ F1 _ _ _ _ (Nat.le_max_left _ _) hF1]
            show (if ((p + 1 + (flattenList body).length : Nat) : Int) = -1
              then some (false, tr0 ++ denoteList body)
              else execIters (fun _ => true) commands (max F1 F2) mm
                (p + 1) (tr0 ++ denoteList body)) = _
            rw [if_neg (by omega)]
            rw [execIters_mono_le _ _ F2 _ _ _ _ _ (Nat.le_max_right _ _) hF2]
            rw [List.replicate_succ, List.flatten_cons, ← List.append_assoc]
      obtain ⟨FI, hFI⟩ := hiter n tr
      refine ⟨max FI fuel + 1, ?_⟩
      rw [execCmds, dif_pos hp, hget]
      show (match execIters (fun _ => true) commands (max FI fuel) n
          (p + 1) tr with
        | none => none
        | some (false, tr2) => some (-1, tr2)
        | some (true, tr2) =>
            execCmds (fun _ => true) commands (max FI fuel)
              (findEnd commands (p + 1) 1) tr2) = some r
      rw [execIters_mono_le _ _ FI _ _ _ _ _ (Nat.le_max_left _ _) hFI]
      show execCmds (fun _ => true) commands (max FI fuel)
        (findEnd commands (p + 1) 1)
        (tr ++ (List.replicate n (denoteList body)).flatten) = some r
      rw [hfe]
      have hidx : p + (flatten1 (SCmd.loop n body)).length =
          p + 1 + (flattenList body).length + 1 := by
        simp [flatten1]
        omega
      rw [hidx] at hcont
      simp only [denote1] at hcont
      exact execCmds_mono_le _ _ fuel _ _ _ _ (Nat.le_max_right _ _) hcont
termination_by sizeOf c

theorem reach_flat1List (s : List SCmd) : ∀ (commands : List Cmd) (p : Nat)
    (rest : List Cmd) (tr : List Nat),
    commands.drop p = flattenList s ++ rest →
    Reaches (fun _ => true) commands p tr
      (p + (flattenList s).length) (tr ++ denoteList s) := by
  intro commands p rest tr hdrop r fuel hcont
  match s with
  | [] =>
      refine ⟨fuel, ?_⟩
      simpa [flattenList, denoteList] using hcont
  | c :: cs =>
      have hdrop' : commands.drop p =
          flatten1 c ++ (flattenList cs ++ rest) := by
        simpa [flattenList, List.append_assoc] using hdrop
      have hdrop2 : commands.drop (p + (flatten1 c).length) =
          flattenList cs ++ rest := drop_block _ _ _ _ hdrop'
      have hidx : p + (flattenList (c :: cs)).length =
          p + (flatten1 c).length + (flattenList cs).length := by
        simp [flattenList]
        omega
      rw [hidx] at hcont
      have htr : tr ++ denoteList (c :: cs) =
          (tr ++ denote1 c) ++ denoteList cs := by
        simp [denoteList, List.append_assoc]
      rw [htr] at hcont
      obtain ⟨F2, hF2⟩ := reach_flat1List cs commands
        (p + (flatten1 c).length) rest (tr ++ denote1 c) hdrop2 r fuel hcont
      exact reach_flat1 c commands p (flattenList cs ++ rest) tr hdrop' r
        F2 hF2
termination_by sizeOf s

end

theorem flatten_replicate_singleton (b k : Nat) :
    (List.replicate b [k]).flatten = List.replicate b k := by
  induction b with
  | zero => rfl
  | succ bb ih =>
      rw [List.replicate_succ, List.flatten_cons, ih, List.replicate_succ]
      rfl

theorem flatten_replicate_replicate (a b k : Nat) :
    (List.replicate a ((List.replicate b [k]).flatten)).flatten =
      List.replicate (a * b) k := by
  rw [flatten_replicate_singleton]
  induction a with
  | zero => simp
  | succ aa ih =>
      rw [List.replicate_succ, List.flatten_cons, ih, Nat.succ_mul,
        Nat.add_comm, List.replicate_add]

/-- C7: for every structured script, executing its flattened command
list (no stop requested, no command failing) terminates with the trace
given by the denotation, in which every LOOP n body is executed exactly
n times in sequence (zero times for n = 0); specialised to a single
LOOP n, the trace is n copies of the body trace, and for nested loops
LOOP a (LOOP b (basic k)) the inner command runs exactly a * b times. -/
theorem script_loop_execution :
    (∀ s : List SCmd, ∃ fuel,
      execCmds (fun _ => true) (flattenList s) fuel 0 [] =
        some (((flattenList s).length : Int), denoteList s)) ∧
    (∀ (n : Nat) (body : List SCmd), ∃ fuel,
      execCmds (fun _ => true) (flattenList [.loop n body]) fuel 0 [] =
        some (((flattenList [.loop n body]).length : Int),
          (List.replicate n (denoteList body)).flatten)) ∧
    (∀ a b k : Nat, ∃ fuel,
      execCmds (fun _ => true)
          (flattenList [.loop a [.loop b [.basic k]]]) fuel 0 [] =
        some ((5 : Int), List.replicate (a * b) k)) := by
  have hmain : ∀ s : List SCmd, ∃ fuel,
      execCmds (fun _ => true) (flattenList s) fuel 0 [] =
        some (((flattenList s).length : Int), denoteList s) := by
    intro s
    have hreach := reach_flat1List s (flattenList s) 0 [] [] (by simp)
    have hcont : execCmds (fun _ => true) (flattenList s) 1
        (0 + (flattenList s).length) ([] ++ denoteList s) =
        some (((0 + (flattenList s).length : Nat) : Int),
          [] ++ denoteList s) := by
      rw [execCmds, dif_neg (by omega)]
    obtain ⟨F, hF⟩ := hreach _ 1 hcont
    refine ⟨F, ?_⟩
    simpa using hF
  refine ⟨hmain, ?_, ?_⟩
  · intro n body
    obtain ⟨F, hF⟩ := hmain [.loop n body]
    refine ⟨F, ?_⟩
    simpa [denoteList, denote1] using hF
  · intro a b k
    obtain ⟨F, hF⟩ := hmain [.loop a [.loop b [.basic k]]]
    refine ⟨F, ?_⟩
    rw [hF]
    simp only [denoteList, denote1, List.append_nil]
    rw [flatten_replicate_replicate]
    rfl

end S7Sim
